import Mathlib

/-!
# Verification of PyRTL's module wire-sort / well-connectedness engine

This file is a shallow embedding, in Lean 4, of the combinational-dependency
("wire sort") machinery of the PyRTL module system:

* `pyrtl/wiresorts.py` — the intramodular and intermodular reachability
  work-list traversals, `_make_wire_sort`, `sort_matches`, and
  `annotate_module` with its per-class sort cache;
* `pyrtl/helpfulness.py` — `error_if_not_well_connected` together with its
  helpers `_modular_forward_reachability` and `_modular_affects_iter`;
* `pyrtl/module.py` — the `<<=` assignment operators of module boundary
  wires (`_ModInput.__ilshift__`, `_ModOutput.__ilshift__`).

Wires are identified by natural numbers.  The netlist substrate
(`block.net_connections()`, provided by `pyrtl/core.py`) is modelled by a
list of nets from which the `src_map` (wire to unique driving net) and
`dst_dict` (wire to consuming nets) are derived, exactly as the spec's
"netlist substrate" collaborator describes.  Python `while work_list:`
loops are embedded as fuel-indexed recursions; fuel exhaustion is the
distinguished artefact `Err.outOfFuel` and never corresponds to a Python
behaviour.  The order in which Python pops elements off its work list (or
iterates a set) is modelled by an explicit `pick` parameter choosing the
index popped at each step, so that order-(in)dependence can be stated.
-/

set_option maxHeartbeats 1000000

instance {ε α : Type _} [DecidableEq ε] [DecidableEq α] :
    DecidableEq (Except ε α) := fun x y =>
  match x, y with
  | .ok a, .ok b =>
    match decEq a b with
    | isTrue h => isTrue (congrArg Except.ok h)
    | isFalse h => isFalse (fun hh => h (by cases hh; rfl))
  | .error a, .error b =>
    match decEq a b with
    | isTrue h => isTrue (congrArg Except.error h)
    | isFalse h => isFalse (fun hh => h (by cases hh; rfl))
  | .ok _, .error _ => isFalse (fun hh => Except.noConfusion hh)
  | .error _, .ok _ => isFalse (fun hh => Except.noConfusion hh)

namespace PyRTL

/-- Wire identifier (Python wires have object identity; we use `Nat`). -/
abbrev WireId := Nat

/-- The kind of a wire: which `WireVector` subclass it is an instance of.
`regular` is a plain `WireVector`, `register` a `Register`, `modInput` /
`modOutput` the module boundary classes, `const` a `Const`, and
`plainInput` / `plainOutput` the block-level `Input` / `Output` classes. -/
inductive WKind where
  | regular | register | modInput | modOutput | const | plainInput | plainOutput
  deriving DecidableEq, Repr

/-- A `LogicNet`: an operator tag (Python stores a one-character string,
e.g. `'m'` for a memory read and `'@'` for a memory write), the argument
wires, the destination wires (zero or one in PyRTL), and — for `'m'`
nets — whether the referenced memory has `asynchronous` set
(`op_param[1].asynchronous`). -/
structure Net where
  op : Char
  args : List WireId
  dests : List WireId
  asyncMem : Bool
  deriving DecidableEq, Repr

/-- The sort of a module boundary wire (`wiresorts.py` classes `Free`,
`Needed`, `Giving`, `Dependent`; identically-shaped classes exist in
`helpfulness.py` where the member sets are called `awaited_by_set` and
`requires_set`).  `Free` and `Giving` always carry an empty member set in
Python, so they carry none here; `memberSet` below recovers the Python
field. -/
inductive WireSort where
  | free
  | needed (s : Finset WireId)
  | giving
  | dependent (s : Finset WireId)
  deriving DecidableEq

/-- The `needed_by_set` / `depends_on_set` (resp. `awaited_by_set` /
`requires_set`) field of a sort object: empty for `Free` and `Giving`. -/
def WireSort.memberSet : WireSort → Finset WireId
  | .free => ∅
  | .needed s => s
  | .giving => ∅
  | .dependent s => s

/-- The variant (Python class) of a sort. -/
inductive SortVariant where
  | free | needed | giving | dependent
  deriving DecidableEq, Repr

def WireSort.variant : WireSort → SortVariant
  | .free => .free
  | .needed _ => .needed
  | .giving => .giving
  | .dependent _ => .dependent

/-- A user sort ascription attached to a boundary wire at declaration time:
either a bare class (`sort=Needed`) or an instance whose member set holds
the *names* of the expected peer wires (`sort=Needed({'d'})`), since the
actual wire objects do not exist yet. -/
inductive Ascribed where
  | cls (v : SortVariant)
  | inst (v : SortVariant) (names : Finset String)
  deriving DecidableEq

/-- Errors.  `pyrtlError` / `pyrtlInternalError` model the two PyRTL
exception classes; `assertionError`, `attributeError`, `keyError` and
`indexError` model the corresponding Python runtime errors; `outOfFuel` is
the embedding artefact for an unfinished fuel-indexed loop and corresponds
to no Python behaviour. -/
inductive Err where
  | pyrtlError (msg : String)
  | pyrtlInternalError (msg : String)
  | assertionError
  | attributeError (msg : String)
  | keyError
  | indexError
  | outOfFuel
  deriving DecidableEq, Repr

/-- The circuit environment: the working block's net list plus the per-wire
attributes the engine reads (`isinstance` kind, `.module`, `.sort`,
`._original_name`, ascription, strictness, bitwidth) and the
`in_definition` flag of each module.  Sorts are modelled as data here
(`sortOf` is the current value of the mutable `.sort` field). -/
structure Env where
  nets : List Net
  kindOf : WireId → WKind
  moduleOf : WireId → Nat
  sortOf : WireId → Option WireSort
  originalName : WireId → String
  ascOf : WireId → Option Ascribed
  strictOf : WireId → Bool
  widthOf : WireId → Nat
  inDefinition : Nat → Bool

/-- `src_map` of `block.net_connections()`: the unique net driving a wire
(the net having the wire among its `dests`), if any. -/
def Env.srcMap (e : Env) (w : WireId) : Option Net :=
  e.nets.find? (fun n => w ∈ n.dests)

/-- `dest_dict` of `block.net_connections()`: the nets consuming a wire
(those having the wire among their `args`). -/
def Env.dstMap (e : Env) (w : WireId) : List Net :=
  e.nets.filter (fun n => w ∈ n.args)

/-- `ModIOWire.is_driven`: the wire appears among the `dests` of some net. -/
def Env.isDriven (e : Env) (w : WireId) : Bool :=
  e.nets.any (fun n => w ∈ n.dests)

/-- A module's boundary for the reachability engines: its identity (used by
the `.module` comparisons) and its input and output wire sets. -/
structure Mod where
  id : Nat
  inputs : Finset WireId
  outputs : Finset WireId

section Trav

/-!
## Generic work-list traversal

Both files implement the same pattern:

```python
while work_list:
    a = work_list.pop()
    if a in seen: continue
    seen.add(a)
    ...                      # possibly record a
    work_list.extend(expand(a))
```

`travE` is this loop: `f` is the expansion step (which may raise),
`pick` chooses which element is popped (Python's `list.pop()` takes the
last; a Python `set.pop()` is arbitrary), and the result is the final
`seen` set.
-/

/-- The (pure) successor list of an expansion step; an erroring step has no
successors.  (Used only to state the declarative reachability relation; the
executable traversal `travE` propagates the error itself.) -/
def pexp (f : WireId → Except Err (List WireId)) (a : WireId) : List WireId :=
  match f a with
  | .ok l => l
  | .error _ => []

/-- One declarative step of a traversal: `b` is among the successors of
`a`. -/
def stepRel (f : WireId → Except Err (List WireId)) (a b : WireId) : Prop :=
  b ∈ pexp f a

/-- The generic work-list loop.  `pick work % work.length` is the index
popped. -/
def travE (f : WireId → Except Err (List WireId)) (pick : List WireId → Nat) :
    Nat → List WireId → Finset WireId → Except Err (Finset WireId)
  | 0, _, _ => .error .outOfFuel
  | _ + 1, [], seen => .ok seen
  | fuel + 1, a :: rest, seen =>
    let x := (a :: rest).getD (pick (a :: rest) % (rest.length + 1)) a
    let work' := (a :: rest).eraseIdx (pick (a :: rest) % (rest.length + 1))
    if x ∈ seen then
      travE f pick fuel work' seen
    else
      match f x with
      | .error e => .error e
      | .ok l => travE f pick fuel (work' ++ l) (insert x seen)

/-- Popping index `i` of a list yields a permutation `l ~ l[i] :: l.eraseIdx i`. -/
theorem perm_getD_cons_eraseIdx (l : List WireId) (d : WireId) (i : Nat)
    (h : i < l.length) : l.Perm (l.getD i d :: l.eraseIdx i) := by
  induction l generalizing i with
  | nil => simp at h
  | cons a t ih =>
    cases i with
    | zero => simp [List.getD]
    | succ j =>
      have hj : j < t.length := by simpa using h
      have h1 := (ih j hj).cons a
      have h2 : (a :: (t.getD j d :: t.eraseIdx j)).Perm
          (t.getD j d :: a :: t.eraseIdx j) := List.Perm.swap _ _ _
      simpa [List.getD] using h1.trans h2

theorem perm_pop (a : WireId) (rest : List WireId) (pick : List WireId → Nat) :
    (a :: rest).Perm
      ((a :: rest).getD (pick (a :: rest) % (rest.length + 1)) a ::
        (a :: rest).eraseIdx (pick (a :: rest) % (rest.length + 1))) :=
  perm_getD_cons_eraseIdx _ _ _ (Nat.mod_lt _ (Nat.succ_pos _))

variable {f : WireId → Except Err (List WireId)} {pick : List WireId → Nat}

/-- The seen set only grows: the initial `seen` is contained in the result. -/
theorem trav_seen_subset : ∀ {n : Nat} {work : List WireId} {seen s : Finset WireId},
    travE f pick n work seen = .ok s → seen ⊆ s := by
  intro n
  induction n with
  | zero => intro work seen s h; simp [travE] at h
  | succ n ih =>
    intro work seen s h
    match work with
    | [] => simp only [travE, Except.ok.injEq] at h; exact h ▸ Finset.Subset.refl _
    | a :: rest =>
      rw [travE] at h
      set x := (a :: rest).getD (pick (a :: rest) % (rest.length + 1)) a with hx
      by_cases hmem : x ∈ seen
      · simp only [← hx, if_pos hmem] at h
        exact ih h
      · simp only [← hx, if_neg hmem] at h
        match hfx : f x with
        | .error e => rw [hfx] at h; exact absurd h (by simp)
        | .ok l =>
          rw [hfx] at h
          exact fun y hy => ih h (Finset.mem_insert_of_mem hy)

/-- Every wire on the work list ends up in the result. -/
theorem trav_work_subset : ∀ {n : Nat} {work : List WireId} {seen s : Finset WireId},
    travE f pick n work seen = .ok s → ∀ y ∈ work, y ∈ s := by
  intro n
  induction n with
  | zero => intro work seen s h; simp [travE] at h
  | succ n ih =>
    intro work seen s h
    match work with
    | [] => simp
    | a :: rest =>
      rw [travE] at h
      set x := (a :: rest).getD (pick (a :: rest) % (rest.length + 1)) a with hx
      set work' := (a :: rest).eraseIdx (pick (a :: rest) % (rest.length + 1)) with hw
      have hperm := perm_pop a rest pick
      intro y hy
      have hy' : y = x ∨ y ∈ work' := List.mem_cons.mp (hperm.mem_iff.mp hy)
      by_cases hmem : x ∈ seen
      · simp only [← hx, ← hw, if_pos hmem] at h
        rcases hy' with rfl | hy'
        · exact trav_seen_subset h hmem
        · exact ih h y hy'
      · simp only [← hx, ← hw, if_neg hmem] at h
        match hfx : f x with
        | .error e => rw [hfx] at h; exact absurd h (by simp)
        | .ok l =>
          rw [hfx] at h
          rcases hy' with rfl | hy'
          · exact trav_seen_subset h (Finset.mem_insert_self _ _)
          · exact ih h y (List.mem_append_left _ hy')

/-- Soundness: everything in the result was either already seen or is
reachable (via `stepRel f`) from some wire on the work list. -/
theorem trav_sound : ∀ {n : Nat} {work : List WireId} {seen s : Finset WireId},
    travE f pick n work seen = .ok s →
    ∀ y ∈ s, y ∈ seen ∨ ∃ a ∈ work, Relation.ReflTransGen (stepRel f) a y := by
  intro n
  induction n with
  | zero => intro work seen s h; simp [travE] at h
  | succ n ih =>
    intro work seen s h
    match work with
    | [] =>
      simp only [travE, Except.ok.injEq] at h
      intro y hy; exact Or.inl (h ▸ hy)
    | a :: rest =>
      rw [travE] at h
      set x := (a :: rest).getD (pick (a :: rest) % (rest.length + 1)) a with hx
      set work' := (a :: rest).eraseIdx (pick (a :: rest) % (rest.length + 1)) with hw
      have hperm := perm_pop a rest pick
      have hxw : x ∈ a :: rest := hperm.mem_iff.mpr (List.mem_cons_self _ _)
      have hsubW : ∀ z ∈ work', z ∈ a :: rest := fun z hz =>
        hperm.mem_iff.mpr (List.mem_cons_of_mem _ hz)
      by_cases hmem : x ∈ seen
      · simp only [← hx, ← hw, if_pos hmem] at h
        intro y hy
        rcases ih h y hy with h' | ⟨b, hb, hr⟩
        · exact Or.inl h'
        · exact Or.inr ⟨b, hsubW b hb, hr⟩
      · simp only [← hx, ← hw, if_neg hmem] at h
        match hfx : f x with
        | .error e => rw [hfx] at h; exact absurd h (by simp)
        | .ok l =>
          rw [hfx] at h
          intro y hy
          rcases ih h y hy with h' | ⟨b, hb, hr⟩
          · rcases Finset.mem_insert.mp h' with h'' | h''
            · subst h''
              exact Or.inr ⟨x, hxw, Relation.ReflTransGen.refl⟩
            · exact Or.inl h''
          · rcases List.mem_append.mp hb with hb' | hb'
            · exact Or.inr ⟨b, hsubW b hb', hr⟩
            · refine Or.inr ⟨x, hxw, Relation.ReflTransGen.head ?_ hr⟩
              simpa [stepRel, pexp, hfx] using hb'


/-- Closure: any wire added to the result strictly after the start (i.e.
not in the initial `seen`) has all of its successors in the result. -/
theorem trav_closed : ∀ {n : Nat} {work : List WireId} {seen s : Finset WireId},
    travE f pick n work seen = .ok s →
    ∀ y ∈ s, y ∉ seen → ∀ b, stepRel f y b → b ∈ s := by
  intro n
  induction n with
  | zero => intro work seen s h; simp [travE] at h
  | succ n ih =>
    intro work seen s h
    match work with
    | [] =>
      simp only [travE, Except.ok.injEq] at h
      intro y hy hy'; exact absurd (h ▸ hy) hy'
    | a :: rest =>
      rw [travE] at h
      set x := (a :: rest).getD (pick (a :: rest) % (rest.length + 1)) a with hx
      set work' := (a :: rest).eraseIdx (pick (a :: rest) % (rest.length + 1)) with hw
      by_cases hmem : x ∈ seen
      · simp only [← hx, ← hw, if_pos hmem] at h
        exact ih h
      · simp only [← hx, ← hw, if_neg hmem] at h
        match hfx : f x with
        | .error e => rw [hfx] at h; exact absurd h (by simp)
        | .ok l =>
          rw [hfx] at h
          intro y hy hy' b hb
          by_cases hyx : y = x
          · subst hyx
            have hbl : b ∈ l := by simpa [stepRel, pexp, hfx] using hb
            exact trav_work_subset h b (List.mem_append_right _ hbl)
          · exact ih h y hy (by simp [hyx, hy']) b hb

/-- Exactness of the traversal: starting from an empty `seen` set, the
result is precisely the set of wires reachable from the initial work list
by the declarative step relation — the work-list loop computes the
reflexive-transitive closure, independently of the pop order. -/
theorem trav_ok_mem_iff {n : Nat} {work : List WireId} {s : Finset WireId}
    (h : travE f pick n work ∅ = .ok s) (y : WireId) :
    y ∈ s ↔ ∃ a ∈ work, Relation.ReflTransGen (stepRel f) a y := by
  constructor
  · intro hy
    rcases trav_sound h y hy with h' | h'
    · exact absurd h' (Finset.not_mem_empty _)
    · exact h'
  · rintro ⟨a, ha, hr⟩
    induction hr with
    | refl => exact trav_work_subset h a ha
    | tail h1 h2 ih => exact trav_closed h _ ih (Finset.not_mem_empty _) _ h2

/-- Any two completed runs over the same expansion step and initial work
list agree, whatever their pop orders and fuels. -/
theorem trav_ok_unique {pick' : List WireId → Nat} {n n' : Nat}
    {work : List WireId} {s s' : Finset WireId}
    (h : travE f pick n work ∅ = .ok s)
    (h' : travE f pick' n' work ∅ = .ok s') : s = s' := by
  ext y
  rw [trav_ok_mem_iff h y, trav_ok_mem_iff h' y]

/-- Fuel bound: the longest successor list over the universe `U`. -/
def travBound (f : WireId → Except Err (List WireId)) (U : Finset WireId) : Nat :=
  U.sup (fun a => (pexp f a).length)

/-- Termination: if the expansion step succeeds on every wire of a finite
universe `U` that is closed under expansion, then the traversal completes
(returns `.ok`) once given enough fuel, for every pop order. -/
theorem trav_term
    (hok : ∀ a ∈ U, ∃ l, f a = .ok l)
    (hcl : ∀ a ∈ U, ∀ b ∈ pexp f a, b ∈ U) :
    ∀ (n : Nat) (work : List WireId) (seen : Finset WireId),
      (∀ a ∈ work, a ∈ U) →
      (travBound f U + 1) * (U \ seen).card + work.length ≤ n →
      ∃ s, travE f pick (n + 1) work seen = .ok s := by
  intro n
  induction n with
  | zero =>
    intro work seen hwork hn
    have : work = [] := by
      cases work with
      | nil => rfl
      | cons a t => simp at hn
    subst this
    exact ⟨seen, rfl⟩
  | succ n ih =>
    intro work seen hwork hn
    match work with
    | [] => exact ⟨seen, rfl⟩
    | a :: rest =>
      rw [travE]
      set x := (a :: rest).getD (pick (a :: rest) % (rest.length + 1)) a with hx
      set work' := (a :: rest).eraseIdx (pick (a :: rest) % (rest.length + 1)) with hw
      have hperm := perm_pop a rest pick
      have hxw : x ∈ a :: rest := hperm.mem_iff.mpr (List.mem_cons_self _ _)
      have hxU : x ∈ U := hwork x hxw
      have hsubW : ∀ z ∈ work', z ∈ U := fun z hz =>
        hwork z (hperm.mem_iff.mpr (List.mem_cons_of_mem _ hz))
      have hlen : work'.length = rest.length := by
        have := hperm.length_eq
        simpa using this.symm
      by_cases hmem : x ∈ seen
      · simp only [← hx, ← hw, if_pos hmem]
        refine ih work' seen hsubW ?_
        simp only [List.length_cons] at hn
        omega
      · simp only [← hx, ← hw, if_neg hmem]
        obtain ⟨l, hfx⟩ := hok x hxU
        rw [hfx]
        refine ih (work' ++ l) (insert x seen) ?_ ?_
        · intro z hz
          rcases List.mem_append.mp hz with hz' | hz'
          · exact hsubW z hz'
          · exact hcl x hxU z (by simpa [pexp, hfx] using hz')
        · have hxdiff : x ∈ U \ seen := Finset.mem_sdiff.mpr ⟨hxU, hmem⟩
          have hcard : (U \ insert x seen).card = (U \ seen).card - 1 := by
            rw [Finset.sdiff_insert]
            exact Finset.card_erase_of_mem hxdiff
          have hpos : 1 ≤ (U \ seen).card := Finset.card_pos.mpr ⟨x, hxdiff⟩
          have hlb : l.length ≤ travBound f U := by
            have : (pexp f x).length = l.length := by simp [pexp, hfx]
            have hle := @Finset.le_sup _ _ _ _ U (fun a => (pexp f a).length) x hxU
            simpa [this] using hle
          simp only [List.length_append, List.length_cons, hlen] at *
          set B := travBound f U
          set c := (U \ seen).card
          have hmul : (B + 1) * (c - 1) + (B + 1) = (B + 1) * c := by
            have h1 : c - 1 + 1 = c := Nat.sub_add_cancel hpos
            calc (B + 1) * (c - 1) + (B + 1) = (B + 1) * (c - 1 + 1) := by ring
              _ = (B + 1) * c := by rw [h1]
          rw [hcard]
          omega

end Trav

/-!
## `wiresorts.py`
-/

/-- A canonical (sorted) enumeration of a multiset, by structural
insertion sort so that the kernel can evaluate it. -/
def sortedList {α : Type} [LinearOrder α] (m : Multiset α) : List α :=
  Quot.liftOn m (List.insertionSort (· ≤ ·))
    (fun a b h =>
      List.eq_of_perm_of_sorted
        ((List.perm_insertionSort _ a).trans (h.trans (List.perm_insertionSort _ b).symm))
        (List.sorted_insertionSort _ a) (List.sorted_insertionSort _ b))

theorem mem_sortedList {α : Type} [LinearOrder α] {m : Multiset α} {a : α} :
    a ∈ sortedList m ↔ a ∈ m := by
  induction m using Quot.inductionOn with
  | h l => exact (List.perm_insertionSort _ l).mem_iff

/-- Iteration over a Python `set` of wires, as a list.  Python's iteration
order is arbitrary; we use the canonical ascending enumeration (the
traversal results are proved independent of such orders). -/
def wlist (s : Finset WireId) : List WireId :=
  sortedList s.val

theorem mem_wlist {s : Finset WireId} {a : WireId} : a ∈ wlist s ↔ a ∈ s :=
  mem_sortedList

/-- One pop of the work-list loop of `_build_intramodular_reachability_maps`
(wiresorts.py lines 266–310), for the module with identity `m`: the wires
appended to the work list when `a` is popped and is not yet seen.  In
order, mirroring the Python: a `Register` absorbs the traversal; a wire of
another module must be an annotated `_ModOutput` (else
`PyrtlInternalError`) and contributes the arguments of the nets driving its
`depends_on_set` members (`assert isinstance(a.sort, OutputSort)` fails on
an input sort); otherwise the wire's own driving net is followed — absent
driver stops, a non-asynchronous memory read (`'m'`) stops, a memory write
(`'@'`) raises `PyrtlError`, the module's own `_ModInput` stops, and any
other net contributes its `args`. -/
def intraExpand (e : Env) (m : Nat) (a : WireId) : Except Err (List WireId) :=
  if e.kindOf a = .register then .ok []
  else if e.moduleOf a ≠ m then
    if e.kindOf a ≠ .modOutput then
      .error (.pyrtlInternalError
        "The sanity checks should have detected this invalid connection by now.")
    else
      match e.sortOf a with
      | none => .error (.pyrtlInternalError
          "All submodules should be annotated before attempting to annotate their supermodule.")
      | some .giving => .ok []
      | some (.dependent s) =>
        .ok ((wlist s).flatMap (fun affector =>
          match e.srcMap affector with
          | some net => net.args
          | none => []))
      | some _ => .error .assertionError
  else
    match e.srcMap a with
    | none => .ok []
    | some net =>
      if net.dests.head? ≠ some a then .error .assertionError
      else if net.op = 'm' ∧ ¬ net.asyncMem then .ok []
      else if net.op = '@' then
        .error (.pyrtlError "memwrites should not have a destination wire")
      else if e.kindOf a = .modInput then .ok []
      else .ok net.args

/-- The `seen` set of the backward work-list traversal started at `o`
inside `_build_intramodular_reachability_maps`. -/
def intraSeen (e : Env) (m : Nat) (pick : List WireId → Nat) (fuel : Nat)
    (o : WireId) : Except Err (Finset WireId) :=
  travE (intraExpand e m) pick fuel [o] ∅

/-- The guard under which a popped wire `a` is recorded into `needed_by`
during the traversal from `o` (it is recorded unless it is the initial
output itself, a register — skipped before recording — or a wire of
another module). -/
def intraRecorded (e : Env) (m : Nat) (o a : WireId) : Prop :=
  a ≠ o ∧ e.kindOf a ≠ .register ∧ e.moduleOf a = m

instance (e : Env) (m : Nat) (o a : WireId) : Decidable (intraRecorded e m o a) := by
  unfold intraRecorded; infer_instance

/-- `needed_by[i]` of `_build_intramodular_reachability_maps`: the module
outputs whose backward traversal recorded `i`.  (Python initialises every
input's entry to the empty set and finally restricts the map's keys to
`module.inputs`; the model is the per-input query.) -/
def neededByE (e : Env) (mp : Mod) (pick : List WireId → Nat) (fuel : Nat)
    (i : WireId) : Except Err (Finset WireId) :=
  (wlist mp.outputs).foldlM
    (fun acc o => (intraSeen e mp.id pick fuel o).map
      (fun s => if i ∈ s ∧ intraRecorded e mp.id o i then insert o acc else acc))
    ∅

/-- `depends_on[o]`: built as the inverse of `needed_by`, exactly as the
final loop of `_build_intramodular_reachability_maps` does
(`for input in module.inputs: for output in needed_by[input]:
depends_on[output].add(input)`). -/
def dependsOnE (e : Env) (mp : Mod) (pick : List WireId → Nat) (fuel : Nat)
    (o : WireId) : Except Err (Finset WireId) :=
  (wlist mp.inputs).foldlM
    (fun acc i => (neededByE e mp pick fuel i).map
      (fun nb => if o ∈ nb then insert i acc else acc))
    ∅

/-- `_make_wire_sort` (wiresorts.py lines 420–436), composed with the map
construction: a `_ModInput` with a non-empty `needed_by` set becomes
`Needed`, else `Free`; a `_ModOutput` with a non-empty `depends_on` set
becomes `Dependent`, else `Giving`; any other wire yields Python `None`. -/
def makeWireSortE (e : Env) (mp : Mod) (pick : List WireId → Nat) (fuel : Nat)
    (w : WireId) : Except Err (Option WireSort) :=
  if e.kindOf w = .modInput then
    (neededByE e mp pick fuel w).map
      (fun nb => some (if nb = ∅ then .free else .needed nb))
  else if e.kindOf w = .modOutput then
    (dependsOnE e mp pick fuel w).map
      (fun d => some (if d = ∅ then .giving else .dependent d))
  else .ok none

/-- One pop of the work-list loop of `_build_intermodular_reachability_maps`
(wiresorts.py lines 198–225).  A `_ModOutput` is skipped over via its
sort's `depends_on_set` (reading that attribute on a missing or input sort
is a Python `AttributeError`); a `Register` absorbs; otherwise the driving
net is followed, where a non-asynchronous memory read stops the traversal
and — unlike the intramodular loop — a memory write (`'@'`) is silently
skipped (`continue`), not an error. -/
def interExpand (e : Env) (s : WireId) : Except Err (List WireId) :=
  if e.kindOf s = .modOutput then
    match e.sortOf s with
    | some .giving => .ok []
    | some (.dependent deps) => .ok (wlist deps)
    | _ => .error (.attributeError "object has no attribute depends_on_set")
  else if e.kindOf s = .register then .ok []
  else
    match e.srcMap s with
    | none => .ok []
    | some net =>
      if net.dests.head? ≠ some s then .error .assertionError
      else if net.op = 'm' ∧ ¬ net.asyncMem then .ok []
      else if net.op = '@' then .ok []
      else .ok net.args

/-- The `seen` set of the intermodular traversal started at a module input
`i`. -/
def interSeen (e : Env) (pick : List WireId → Nat) (fuel : Nat)
    (i : WireId) : Except Err (Finset WireId) :=
  travE (interExpand e) pick fuel [i] ∅

/-- `wires_to_inputs[w]` of `_build_intermodular_reachability_maps`: the
inputs (over all the given modules) whose traversal recorded `w` (a popped
wire is recorded unless it is the traversal's own starting input).  Python
stores the whole map and finally restricts its keys to `_ModOutput`s; the
model is the per-key query, used — as in `find_bad_connection_from_module`
— only at output wires. -/
def wiresToInputsE (e : Env) (ms : List Mod) (pick : List WireId → Nat)
    (fuel : Nat) (w : WireId) : Except Err (Finset WireId) :=
  ms.foldlM
    (fun acc m => (wlist m.inputs).foldlM
      (fun acc2 i => (interSeen e pick fuel i).map
        (fun s => if w ∈ s ∧ w ≠ i then insert i acc2 else acc2))
      acc)
    ∅

/-- `sort_matches` (wiresorts.py lines 324–367): a bare class ascription
(`isinstance(ascription, type)`) matches any computed sort of that class;
an instance ascription of `Free`/`Giving` matches any computed
`Free`/`Giving`; an instance ascription of `Needed`/`Dependent` matches a
computed sort of the same class whose member wires' `_original_name`s form
exactly the ascribed name set; everything else is a mismatch. -/
def sortMatches (e : Env) (a : Ascribed) (s : WireSort) : Bool :=
  match a with
  | .cls v => s.variant = v
  | .inst v names =>
    match v, s with
    | .free, .free => true
    | .giving, .giving => true
    | .needed, .needed ns => decide (names = ns.image e.originalName)
    | .dependent, .dependent ds => decide (names = ds.image e.originalName)
    | _, _ => false

/-- `str(wire)` for a `ModIOWire`: `_original_name + '/' + bitwidth + 'W'`. -/
def wireStr (e : Env) (w : WireId) : String :=
  e.originalName w ++ "/" ++ toString (e.widthOf w) ++ "W"

/-- `str(sort)`: the printed form of a computed sort (member wires shown by
original name). -/
def sortStr (e : Env) : WireSort → String
  | .free => "Free"
  | .needed s =>
    "Needed (needed by: " ++
      String.intercalate ", " (sortedList (s.image e.originalName).val) ++ ")"
  | .giving => "Giving"
  | .dependent s =>
    "Dependent (depends on: " ++
      String.intercalate ", " (sortedList (s.image e.originalName).val) ++ ")"

/-- `ascription.__name__`: defined only when the ascription is a bare class
(a Python `type`); reading `__name__` on a sort *instance* raises
`AttributeError`, since instances of the sort classes have no such
attribute. -/
def ascName : Ascribed → Except Err String
  | .cls .free => .ok "Free"
  | .cls .needed => .ok "Needed"
  | .cls .giving => .ok "Giving"
  | .cls .dependent => .ok "Dependent"
  | .inst _ _ => .error (.attributeError "object has no attribute __name__")

/-- A module instance as `annotate_module` sees it: its identity and its
`input_dict` / `output_dict` (declared name to wire). -/
structure ModInst where
  id : Nat
  inputDict : List (String × WireId)
  outputDict : List (String × WireId)

/-- `module.inputs.union(module.outputs)` as the iteration list. -/
def ModInst.pairs (mi : ModInst) : List (String × WireId) :=
  mi.inputDict ++ mi.outputDict

/-- The `Mod` view used by the reachability maps. -/
def ModInst.toMod (mi : ModInst) : Mod :=
  ⟨mi.id, (mi.inputDict.map Prod.snd).toFinset, (mi.outputDict.map Prod.snd).toFinset⟩

/-- `getattr(module, name)` (module.py `__getattr__`): look the name up in
`input_dict`, then `output_dict`; `AttributeError` (here `none`) if absent. -/
def getattrW (mi : ModInst) (name : String) : Option WireId :=
  (mi.inputDict ++ mi.outputDict).lookup name

/-- The per-shape sort cache `block.module_sorts`: class name to sort map
(keyed by boundary-wire original name). -/
abbrev SortMap := List (String × WireSort)
abbrev Cache := List (String × SortMap)

/-- The `update_set` helper inside `annotate_module`'s cache branch: map
every member wire of a cached sort to the current instance's same-named
boundary wire (`getattr(module, w._original_name)`). -/
def updateSet (e : Env) (mi : ModInst) (s : Finset WireId) :
    Except Err (Finset WireId) :=
  (wlist s).foldlM
    (fun acc w =>
      match getattrW mi (e.originalName w) with
      | some w2 => .ok (insert w2 acc)
      | none => .error (.attributeError "Cannot get non-IO wirevector from module."))
    ∅

/-- Cloning a cached sort for a new instance of the same module class
(the `if isinstance(sort, Free): ... else: Dependent(update_set(...))`
chain in `annotate_module`). -/
def cloneSort (e : Env) (mi : ModInst) : WireSort → Except Err WireSort
  | .free => .ok .free
  | .giving => .ok .giving
  | .needed s => (updateSet e mi s).map WireSort.needed
  | .dependent s => (updateSet e mi s).map WireSort.dependent

/-- One boundary wire of `annotate_module`'s cache branch: look the cached
sort up under the wire's original name and append its clone.  Note that
this step never consults the reachability maps (no `pick`/`fuel`): cloning
skips the traversal entirely. -/
def cloneStep (e : Env) (mi : ModInst) (sorts : SortMap)
    (acc : List (WireId × WireSort)) (p : String × WireId) :
    Except Err (List (WireId × WireSort)) :=
  match sorts.lookup (e.originalName p.2) with
  | none => .error .keyError
  | some s => (cloneSort e mi s).map (fun s2 => acc ++ [(p.2, s2)])

/-- One boundary wire of `annotate_module`'s compute branch: derive the
sort by `_make_wire_sort`, check it against the ascription if any, and
record both the `io.sort = sort` assignment and the memoized entry under
the wire's original name. -/
def computeStep (e : Env) (mi : ModInst) (pick : List WireId → Nat) (fuel : Nat)
    (acc : List (WireId × WireSort) × SortMap) (p : String × WireId) :
    Except Err (List (WireId × WireSort) × SortMap) :=
  match makeWireSortE e mi.toMod pick fuel p.2 with
  | .error err => .error err
  | .ok none => .error .assertionError
  | .ok (some srt) =>
    match e.ascOf p.2 with
    | some asc =>
      if sortMatches e asc srt then
        .ok (acc.1 ++ [(p.2, srt)], acc.2 ++ [(e.originalName p.2, srt)])
      else
        (ascName asc).bind (fun declared =>
          .error (.pyrtlError
            ("Unmatched sort ascription on wire " ++ wireStr e p.2 ++
              ". User provided " ++ declared ++ ". But we computed " ++
              sortStr e srt ++ ".")))
    | none =>
      .ok (acc.1 ++ [(p.2, srt)], acc.2 ++ [(e.originalName p.2, srt)])

/-- `annotate_module` (wiresorts.py lines 370–417).  If the module's class
name is cached, each boundary wire receives the clone (members substituted
by original name) of the cached sort under its original name, and the
cache is unchanged; otherwise the intramodular maps are computed, each
boundary wire's sort is derived by `_make_wire_sort`, checked against its
ascription if any (a mismatch raises — with a message naming the wire, the
declared sort and the computed sort — but evaluating `io.sort.__name__`
first, which for an instance ascription is an `AttributeError`), and the
resulting sort map is memoized under the class name.  The returned list is
the sequence of `io.sort = sort` assignments performed. -/
def annotateModule (e : Env) (mi : ModInst) (className : String)
    (cache : Cache) (pick : List WireId → Nat) (fuel : Nat) :
    Except Err (List (WireId × WireSort) × Cache) :=
  match cache.lookup className with
  | some sorts =>
    (mi.pairs.foldlM (cloneStep e mi sorts) []).map (fun a => (a, cache))
  | none =>
    (mi.pairs.foldlM (computeStep e mi pick fuel) ([], [])).map
      (fun r => (r.1, cache ++ [(className, r.2)]))

/-!
## `helpfulness.py`: the eager well-connectedness check
-/

/-- The wire classes at which `_modular_affects_iter` stops following a
path forward: `(ModInput, Const, Register, MemBlock, RomBlock, Input,
Output)` — the memory classes are never wires, so only the wire kinds
remain. -/
def stopKindH (e : Env) (w : WireId) : Bool :=
  decide (e.kindOf w = .modInput ∨ e.kindOf w = .const ∨ e.kindOf w = .register ∨
    e.kindOf w = .plainInput ∨ e.kindOf w = .plainOutput)

/-- One pop of `_modular_affects_iter`'s inner loop: a stop-kind wire is
not expanded; otherwise the wire contributes `net.dests[0]` of every net
consuming it that has a destination. -/
def affectsExpand (e : Env) (w : WireId) : Except Err (List WireId) :=
  if stopKindH e w then .ok []
  else .ok ((e.dstMap w).flatMap (fun n => n.dests.head?.toList))

/-- `_modular_affects_iter(wire, dest_dict)` (helpfulness.py lines
171–204): `{wire}` if `wire` is of a stop kind or consumed by no net,
otherwise the work-list closure of the destinations of the nets consuming
`wire`. -/
def modularAffects (e : Env) (pick : List WireId → Nat) (fuel : Nat)
    (w : WireId) : Except Err (Finset WireId) :=
  if stopKindH e w then .ok {w}
  else if e.dstMap w = [] then .ok {w}
  else travE (affectsExpand e) pick fuel
    ((e.dstMap w).flatMap (fun n => n.dests.head?.toList)) ∅

/-- `mod_input.sort.awaited_by_set`: reading the attribute on a sort that
is `None` or an output sort raises `AttributeError`. -/
def awaitedOf (e : Env) (w : WireId) : Except Err (Finset WireId) :=
  match e.sortOf w with
  | some .free => .ok ∅
  | some (.needed s) => .ok s
  | _ => .error (.attributeError "object has no attribute awaited_by_set")

/-- `_modular_forward_reachability(wire, module)` (helpfulness.py lines
152–168): the outer loop over `to_check`.  Note that — faithfully to the
Python — this loop has *no* `seen` set: a popped wire's module inputs are
accumulated into `affects_inputs` and the outputs awaiting those inputs
are pushed, possibly repeatedly.  `innerFuel` is the fuel of each inner
`_modular_affects_iter` run. -/
def modularForwardE (e : Env) (pick : List WireId → Nat) (innerFuel : Nat) :
    Nat → List WireId → Finset WireId → Except Err (Finset WireId)
  | 0, _, _ => .error .outOfFuel
  | _ + 1, [], acc => .ok acc
  | fuel + 1, a :: rest, acc =>
    let w := (a :: rest).getD (pick (a :: rest) % (rest.length + 1)) a
    let work' := (a :: rest).eraseIdx (pick (a :: rest) % (rest.length + 1))
    match modularAffects e pick innerFuel w with
    | .error err => .error err
    | .ok aff =>
      let minp := aff.filter (fun x => e.kindOf x = .modInput)
      match (wlist minp).foldlM
          (fun l i => (awaitedOf e i).map (fun s => l ++ wlist s))
          ([] : List WireId) with
      | .error err => .error err
      | .ok newW => modularForwardE e pick innerFuel fuel (work' ++ newW) (acc ∪ minp)

/-- `isinstance(sort, (Free, Needed))`. -/
def isInputSort : Option WireSort → Bool
  | some .free => true
  | some (.needed _) => true
  | _ => false

/-- `isinstance(sort, (Giving, Dependent))`. -/
def isOutputSort : Option WireSort → Bool
  | some .giving => true
  | some (.dependent _) => true
  | _ => false

/-- The connection error message raised by `error_if_not_well_connected`. -/
def connErrMsg (e : Env) (toWire fromWire : WireId) : String :=
  "Connection error! " ++ wireStr e toWire ++ " <<= " ++ wireStr e fromWire

/-- The body of the innermost loop of `error_if_not_well_connected`: for a
net consuming the awaiting wire, compute the descendants of its
destination (`_modular_forward_reachability(net.dests[0], ...)` plus the
destination itself — `net.dests[0]` raises `IndexError` on a destless
net) and reject if the required wire is among them. -/
def connNetCheck (e : Env) (pick : List WireId → Nat) (innerFuel outerFuel : Nat)
    (msg : String) (r : WireId) (net : Net) : Except Err Unit :=
  match net.dests.head? with
  | none => .error .indexError
  | some d0 =>
    match modularForwardE e pick innerFuel outerFuel [d0] ∅ with
    | .error err => .error err
    | .ok desc =>
      if r ∈ insert d0 desc then .error (.pyrtlError msg) else .ok ()

/-- The body of the two nested loops of `error_if_not_well_connected` for
one `(required_wire, awaiting_wire)` pair: the member-kind assertions, the
`awaiting_wire in dst_dict` test (a disconnected awaiting wire is
ambiguous and accepted), and the loop over the nets consuming the awaiting
wire. -/
def connPairCheck (e : Env) (pick : List WireId → Nat) (innerFuel outerFuel : Nat)
    (msg : String) (r n : WireId) : Except Err Unit :=
  if e.kindOf r ≠ .modInput then .error .assertionError
  else if e.kindOf n ≠ .modOutput then .error .assertionError
  else if e.dstMap n = [] then .ok ()
  else (e.dstMap n).foldlM
    (fun _ net => connNetCheck e pick innerFuel outerFuel msg r net) ()

/-- `error_if_not_well_connected(to_wire, from_wire)` (helpfulness.py lines
66–114).  After the entry assertions, the check runs only when `to_wire`'s
sort is `Needed` and `from_wire`'s sort is `Dependent`: first the trivial
1-hop test, then, for every `required_wire` in the `requires_set` and
every `awaiting_wire` in the `awaited_by_set`, the per-pair check. -/
def errorIfNotWellConnectedE (e : Env) (toWire fromWire : WireId)
    (pick : List WireId → Nat) (innerFuel outerFuel : Nat) : Except Err Unit :=
  if e.kindOf toWire ≠ .modInput then .error .assertionError
  else if e.kindOf fromWire ≠ .modOutput then .error .assertionError
  else if !isInputSort (e.sortOf toWire) then .error .assertionError
  else if !isOutputSort (e.sortOf fromWire) then .error .assertionError
  else
    match e.sortOf toWire, e.sortOf fromWire with
    | some (.needed nset), some (.dependent rset) =>
      if toWire ∈ rset ∨ fromWire ∈ nset then
        .error (.pyrtlError (connErrMsg e toWire fromWire))
      else
        (wlist rset).foldlM
          (fun _ r => (wlist nset).foldlM
            (fun _ n => connPairCheck e pick innerFuel outerFuel
              (connErrMsg e toWire fromWire) r n)
            ())
          ()
    | _, _ => .ok ()

/-!
## `module.py`: the boundary-wire assignment operators
-/

/-- The net built by `WireVector.__ilshift__` / `_build`: `op='w'`, args
`(other,)`, dests `(self,)`.  (The bitwidth-matching pass of
`_prepare_for_assignment`, which may insert an extension net when the
widths differ, is outside the modelled fragment.) -/
def wNet (src dst : WireId) : Net :=
  ⟨'w', [src], [dst], false⟩

/-- `_ModInput.__ilshift__` (module.py lines 236–268): the in-definition
guard, the strict-width guard, the `is_driven` guard, then the
well-connectedness check, and only then the construction of the physical
net.  The check is invoked — literally as module.py line 266 does,
`error_if_not_well_connected(other, self)` — with the right-hand wire
bound to the checker's `to_wire` parameter and the module input bound to
`from_wire`, even though the checker's entry assertions expect the
opposite orientation (when `other` is a `_ModOutput`, the first assertion
fails).  The result is the raised error (if any) paired with the block
state when control leaves the method. -/
def modInputILshift (e : Env) (i other : WireId) (pick : List WireId → Nat)
    (innerFuel outerFuel : Nat) : Option Err × Env :=
  if e.inDefinition (e.moduleOf i) then
    (some (.pyrtlError ("Invalid module. Module input " ++ wireStr e i ++
      " cannot be used on the lhs of <<= while within a module definition.")), e)
  else if e.widthOf i ≠ e.widthOf other ∧ e.strictOf i then
    (some (.pyrtlError ("Length of module input " ++ wireStr e i ++
      " != length of " ++ wireStr e other ++
      ", and this module input has strict sizing set to True")), e)
  else if e.isDriven i then
    (some (.pyrtlError ("Attempted to connect to already-connected module input " ++
      wireStr e i ++ ")")), e)
  else
    match errorIfNotWellConnectedE e other i pick innerFuel outerFuel with
    | .error err => (some err, e)
    | .ok () => (none, { e with nets := e.nets ++ [wNet other i] })

/-- `_ModOutput.__ilshift__` (module.py lines 290–308): the in-definition
guard (outputs may only be assigned during their module's definition), the
`is_driven` guard, then the physical net; no well-connectedness check. -/
def modOutputILshift (e : Env) (o other : WireId) : Option Err × Env :=
  if !e.inDefinition (e.moduleOf o) then
    (some (.pyrtlError ("Invalid module. Module output " ++ wireStr e o ++
      " can only be used on the lhs of <<= while within a module definition.")), e)
  else if e.isDriven o then
    (some (.pyrtlError ("Attempted to connect to already-connected module output " ++
      wireStr e o ++ ")")), e)
  else
    (none, { e with nets := e.nets ++ [wNet other o] })

/-!
## Declarative reachability relations
-/

/-- The declarative one-step relation of the intramodular backward
traversal: `b` is pushed when `a` is popped. -/
def intraStep (e : Env) (m : Nat) : WireId → WireId → Prop :=
  stepRel (intraExpand e m)

/-- Backward combinational reachability inside module `m`: the
reflexive-transitive closure of the traversal step. -/
def IntraReaches (e : Env) (m : Nat) (o w : WireId) : Prop :=
  Relation.ReflTransGen (intraStep e m) o w

/-- The declarative one-step relation of the intermodular backward
traversal. -/
def interStep (e : Env) : WireId → WireId → Prop :=
  stepRel (interExpand e)

/-- Backward combinational reachability through the enclosing scope's
wiring (jumping over module interiors by sort). -/
def InterReaches (e : Env) (i w : WireId) : Prop :=
  Relation.ReflTransGen (interStep e) i w

/-- One ordinary forward wiring step of the `helpfulness.py` forward
traversal: from a non-stop wire to the destination of a consuming net. -/
def ordStepH (e : Env) (a b : WireId) : Prop :=
  stopKindH e a = false ∧ ∃ net ∈ e.dstMap a, net.dests.head? = some b

/-- The `awaited_by_set` read declaratively (empty when the sort carries
none). -/
def awaitedSet (e : Env) (w : WireId) : Finset WireId :=
  match e.sortOf w with
  | some (.needed s) => s
  | _ => ∅

/-- One step of forward reachability through wiring outside module
interiors: an ordinary wiring step, or the jump from a module input over
its module's interior to an output awaiting it. -/
def hStep (e : Env) (a b : WireId) : Prop :=
  ordStepH e a b ∨ (e.kindOf a = .modInput ∧ b ∈ awaitedSet e a)

/-- Forward combinational reachability through wiring outside any module's
interior (`helpfulness.py`'s notion, with module interiors jumped by sort). -/
def HReach (e : Env) : WireId → WireId → Prop :=
  Relation.ReflTransGen (hStep e)

/-- The `requires_set` read declaratively (empty when the sort carries
none). -/
def requiresSet (e : Env) (w : WireId) : Finset WireId :=
  match e.sortOf w with
  | some (.dependent s) => s
  | _ => ∅

/-!
## Characterization of the `helpfulness.py` forward reachability
-/

theorem rtc_iff_of_iff {α : Type} {r s : α → α → Prop}
    (h : ∀ a b, r a b ↔ s a b) {a b : α} :
    Relation.ReflTransGen r a b ↔ Relation.ReflTransGen s a b :=
  ⟨Relation.ReflTransGen.mono (fun x y hxy => (h x y).mp hxy),
   Relation.ReflTransGen.mono (fun x y hxy => (h x y).mpr hxy)⟩

/-- The inner expansion of `_modular_affects_iter` never raises. -/
theorem affectsExpand_ok (e : Env) (w : WireId) :
    ∃ l, affectsExpand e w = .ok l := by
  unfold affectsExpand
  split
  · exact ⟨_, rfl⟩
  · exact ⟨_, rfl⟩

/-- One step of `_modular_affects_iter`'s closure is exactly an ordinary
forward wiring step. -/
theorem affects_step_iff (e : Env) (a b : WireId) :
    stepRel (affectsExpand e) a b ↔ ordStepH e a b := by
  unfold stepRel pexp affectsExpand ordStepH
  by_cases h : stopKindH e a = true
  · simp [h]
  · rw [Bool.not_eq_true] at h
    simp [h, List.mem_flatMap, Option.mem_toList, Option.mem_def]

/-- When the expansion step never raises, the traversal can fail only by
fuel exhaustion. -/
theorem travE_error_fuel {f : WireId → Except Err (List WireId)}
    {pick : List WireId → Nat} (hok : ∀ x, ∃ l, f x = .ok l) :
    ∀ {n : Nat} {work : List WireId} {seen : Finset WireId} {err : Err},
    travE f pick n work seen = .error err → err = .outOfFuel := by
  intro n
  induction n with
  | zero =>
    intro work seen err h
    simp only [travE, Except.error.injEq] at h
    exact h.symm
  | succ n ih =>
    intro work seen err h
    match work with
    | [] => simp [travE] at h
    | a :: rest =>
      rw [travE] at h
      set x := (a :: rest).getD (pick (a :: rest) % (rest.length + 1)) a with hx
      by_cases hmem : x ∈ seen
      · simp only [← hx, if_pos hmem] at h
        exact ih h
      · simp only [← hx, if_neg hmem] at h
        obtain ⟨l, hl⟩ := hok x
        rw [hl] at h
        exact ih h

/-- Membership of a module input in the result of
`_modular_affects_iter(w)` is exactly ordinary-step reachability from
`w`.  (A module-input result member cannot be the non-stop-kind start
wire of the interesting case, which makes the three cases uniform.) -/
theorem modularAffects_mem {e : Env} {pick : List WireId → Nat} {fuel : Nat}
    {w : WireId} {A : Finset WireId}
    (hrun : modularAffects e pick fuel w = .ok A) {x : WireId}
    (hx : e.kindOf x = .modInput) :
    x ∈ A ↔ Relation.ReflTransGen (ordStepH e) w x := by
  have hxstop : stopKindH e x = true := by
    unfold stopKindH
    simp [hx]
  have hseed : ∀ d, d ∈ (e.dstMap w).flatMap (fun n => n.dests.head?.toList) ↔
      ∃ net ∈ e.dstMap w, net.dests.head? = some d := by
    intro d
    simp only [List.mem_flatMap, Option.mem_toList]
    constructor
    · rintro ⟨net, hnet, hd⟩
      exact ⟨net, hnet, by simpa [Option.mem_def] using hd⟩
    · rintro ⟨net, hnet, hd⟩
      exact ⟨net, hnet, by simpa [Option.mem_def] using hd⟩
  unfold modularAffects at hrun
  by_cases hstop : stopKindH e w = true
  · rw [if_pos hstop] at hrun
    obtain rfl : ({w} : Finset WireId) = A := Except.ok.inj hrun
    simp only [Finset.mem_singleton]
    constructor
    · rintro rfl
      exact Relation.ReflTransGen.refl
    · intro hr
      rcases Relation.ReflTransGen.cases_head hr with heq | ⟨c, hc, _⟩
      · exact heq.symm
      · rw [hc.1] at hstop
        exact absurd hstop (by simp)
  · rw [if_neg hstop] at hrun
    have hxw : x ≠ w := by
      intro hxw
      rw [hxw] at hxstop
      rw [hxstop] at hstop
      exact hstop rfl
    by_cases hdst : e.dstMap w = []
    · rw [if_pos hdst] at hrun
      obtain rfl : ({w} : Finset WireId) = A := Except.ok.inj hrun
      simp only [Finset.mem_singleton]
      constructor
      · intro h
        exact absurd h hxw
      · intro hr
        rcases Relation.ReflTransGen.cases_head hr with heq | ⟨c, hc, _⟩
        · exact absurd heq.symm hxw
        · obtain ⟨-, net, hnet, -⟩ := hc
          rw [hdst] at hnet
          exact absurd hnet (List.not_mem_nil _)
    · rw [if_neg hdst] at hrun
      rw [trav_ok_mem_iff hrun x]
      constructor
      · rintro ⟨d, hd, hr⟩
        have hstep : ordStepH e w d := by
          refine ⟨by simpa using hstop, ?_⟩
          exact (hseed d).mp hd
        exact Relation.ReflTransGen.head hstep
          ((rtc_iff_of_iff (affects_step_iff e)).mp hr)
      · intro hr
        rcases Relation.ReflTransGen.cases_head hr with heq | ⟨c, hc, hcr⟩
        · exact absurd heq.symm hxw
        · refine ⟨c, (hseed c).mpr hc.2, ?_⟩
          exact (rtc_iff_of_iff (affects_step_iff e)).mpr hcr

/-!
## Characterization of the traversal-derived maps
-/

/-- Whether an `Except` value is a success. -/
def isOkE {α : Type} : Except Err α → Bool
  | .ok _ => true
  | .error _ => false

theorem isOkE_iff {α : Type} {x : Except Err α} :
    isOkE x = true ↔ ∃ v, x = .ok v := by
  cases x <;> simp [isOkE]

/-- The payload of a successful traversal (junk on error). -/
def okSet (x : Except Err (Finset WireId)) : Finset WireId :=
  match x with
  | .ok s => s
  | .error _ => ∅

theorem okSet_eq {x : Except Err (Finset WireId)} {s : Finset WireId}
    (h : x = .ok s) : okSet x = s := by
  subst h; rfl

/-- Well-behavedness of a traversal over a finite universe `U`: `U` is
closed under expansion and the expansion step succeeds on it. -/
structure TravUniv (f : WireId → Except Err (List WireId)) (U : Finset WireId) : Prop where
  closed : ∀ a ∈ U, ∀ b ∈ pexp f a, b ∈ U
  okOn : ∀ a ∈ U, isOkE (f a) = true

instance (f : WireId → Except Err (List WireId)) (U : Finset WireId) :
    Decidable (TravUniv f U) :=
  decidable_of_iff
    ((∀ a ∈ U, ∀ b ∈ pexp f a, b ∈ U) ∧ ∀ a ∈ U, isOkE (f a) = true)
    ⟨fun h => ⟨h.1, h.2⟩, fun h => ⟨h.closed, h.okOn⟩⟩

/-- Termination of the generic traversal from an empty seen set: with
enough fuel relative to the universe, it completes. -/
theorem trav_term' {f : WireId → Except Err (List WireId)}
    {pick : List WireId → Nat} {U : Finset WireId}
    (hU : TravUniv f U) {work : List WireId} (hstart : ∀ a ∈ work, a ∈ U)
    {fuel : Nat}
    (hfuel : (travBound f U + 1) * U.card + work.length + 1 ≤ fuel) :
    ∃ s, travE f pick fuel work ∅ = .ok s := by
  have hok : ∀ a ∈ U, ∃ l, f a = .ok l := fun a ha => isOkE_iff.mp (hU.okOn a ha)
  have h1 : fuel = (fuel - 1) + 1 := by omega
  rw [h1]
  refine trav_term hok hU.closed (fuel - 1) work ∅ hstart ?_
  rw [Finset.sdiff_empty]
  omega

/-- In the intramodular traversal from output `o`, the final seen set is
exactly the set of wires backward-reachable from `o`. -/
theorem intraSeen_mem_iff {e : Env} {m : Nat} {pick : List WireId → Nat}
    {fuel : Nat} {o : WireId} {s : Finset WireId}
    (h : intraSeen e m pick fuel o = .ok s) (y : WireId) :
    y ∈ s ↔ IntraReaches e m o y := by
  have := trav_ok_mem_iff h y
  simpa [IntraReaches, intraStep] using this

/-- In the intermodular traversal from input `i`, the final seen set is
exactly the set of wires backward-reachable from `i`. -/
theorem interSeen_mem_iff {e : Env} {pick : List WireId → Nat}
    {fuel : Nat} {i : WireId} {s : Finset WireId}
    (h : interSeen e pick fuel i = .ok s) (y : WireId) :
    y ∈ s ↔ InterReaches e i y := by
  have := trav_ok_mem_iff h y
  simpa [InterReaches, interStep] using this

/-- Characterization of the `.map (fun s => if _ then insert _ acc else acc)`
folds used to read the traversal results back into maps. -/
theorem foldlM_insert_ok {β : Type} (l : List β) (cond : β → Prop)
    (add : β → WireId)
    (body : Finset WireId → β → Except Err (Finset WireId))
    (hbody : ∀ b ∈ l, ∀ acc,
      (cond b ∧ body acc b = .ok (insert (add b) acc)) ∨
      (¬ cond b ∧ body acc b = .ok acc)) :
    ∀ init : Finset WireId, ∃ res, l.foldlM body init = .ok res ∧
      ∀ y, (y ∈ res ↔ y ∈ init ∨ ∃ b ∈ l, cond b ∧ y = add b) := by
  induction l with
  | nil =>
    intro init
    exact ⟨init, rfl, by simp⟩
  | cons b t ih =>
    intro init
    have ihs := ih (fun c hc => hbody c (List.mem_cons_of_mem _ hc))
    rcases hbody b (List.mem_cons_self _ _) init with ⟨hc, heq⟩ | ⟨hc, heq⟩
    · obtain ⟨res, hres, hmem⟩ := ihs (insert (add b) init)
      refine ⟨res, ?_, ?_⟩
      · rw [List.foldlM_cons, heq]
        simpa using hres
      · intro y
        rw [hmem y]
        constructor
        · rintro (hy | ⟨c, hct, hcc, rfl⟩)
          · rcases Finset.mem_insert.mp hy with rfl | hy'
            · exact Or.inr ⟨b, List.mem_cons_self _ _, hc, rfl⟩
            · exact Or.inl hy'
          · exact Or.inr ⟨c, List.mem_cons_of_mem _ hct, hcc, rfl⟩
        · rintro (hy | ⟨c, hct, hcc, rfl⟩)
          · exact Or.inl (Finset.mem_insert_of_mem hy)
          · rcases List.mem_cons.mp hct with rfl | hct'
            · exact Or.inl (Finset.mem_insert_self _ _)
            · exact Or.inr ⟨c, hct', hcc, rfl⟩
    · obtain ⟨res, hres, hmem⟩ := ihs init
      refine ⟨res, ?_, ?_⟩
      · rw [List.foldlM_cons, heq]
        simpa using hres
      · intro y
        rw [hmem y]
        constructor
        · rintro (hy | ⟨c, hct, hcc, rfl⟩)
          · exact Or.inl hy
          · exact Or.inr ⟨c, List.mem_cons_of_mem _ hct, hcc, rfl⟩
        · rintro (hy | ⟨c, hct, hcc, rfl⟩)
          · exact Or.inl hy
          · rcases List.mem_cons.mp hct with rfl | hct'
            · exact absurd hcc hc
            · exact Or.inr ⟨c, hct', hcc, rfl⟩

/-- Characterization of `needed_by[i]`: assuming every output's traversal
completes, `needed_by[i]` is defined and holds exactly the outputs from
which `i` is backward-reachable and recordable. -/
theorem neededByE_char {e : Env} {mp : Mod} {pick : List WireId → Nat}
    {fuel : Nat} (i : WireId)
    (hok : ∀ o ∈ mp.outputs, ∃ s, intraSeen e mp.id pick fuel o = .ok s) :
    ∃ res, neededByE e mp pick fuel i = .ok res ∧
      ∀ o, (o ∈ res ↔ o ∈ mp.outputs ∧ IntraReaches e mp.id o i ∧
        intraRecorded e mp.id o i) := by
  have hbody : ∀ o ∈ wlist mp.outputs, ∀ acc : Finset WireId,
      ((IntraReaches e mp.id o i ∧ intraRecorded e mp.id o i) ∧
        (intraSeen e mp.id pick fuel o).map
          (fun s => if i ∈ s ∧ intraRecorded e mp.id o i then insert o acc else acc) =
          .ok (insert o acc)) ∨
      (¬ (IntraReaches e mp.id o i ∧ intraRecorded e mp.id o i) ∧
        (intraSeen e mp.id pick fuel o).map
          (fun s => if i ∈ s ∧ intraRecorded e mp.id o i then insert o acc else acc) =
          .ok acc) := by
    intro o ho acc
    obtain ⟨s, hs⟩ := hok o (mem_wlist.mp ho)
    have hmem := intraSeen_mem_iff hs i
    rw [hs]
    by_cases hc : IntraReaches e mp.id o i ∧ intraRecorded e mp.id o i
    · refine Or.inl ⟨hc, ?_⟩
      simp only [Except.map]
      rw [if_pos ⟨hmem.mpr hc.1, hc.2⟩]
    · refine Or.inr ⟨hc, ?_⟩
      simp only [Except.map]
      rw [if_neg (fun hcc => hc ⟨hmem.mp hcc.1, hcc.2⟩)]
  obtain ⟨res, hres, hmemres⟩ :=
    foldlM_insert_ok (wlist mp.outputs)
      (fun o => IntraReaches e mp.id o i ∧ intraRecorded e mp.id o i)
      (fun o => o) _ hbody ∅
  refine ⟨res, hres, ?_⟩
  intro o
  rw [hmemres o]
  constructor
  · rintro (h | ⟨c, hct, hcc, rfl⟩)
    · exact absurd h (Finset.not_mem_empty _)
    · exact ⟨mem_wlist.mp hct, hcc.1, hcc.2⟩
  · rintro ⟨ho, hr, hg⟩
    exact Or.inr ⟨o, mem_wlist.mpr ho, ⟨hr, hg⟩, rfl⟩

/-- Characterization of `depends_on[o]` (the inverse construction):
assuming every output's traversal completes, `depends_on[o]` is defined
and holds exactly the inputs backward-reachable (and recordable) from
`o`. -/
theorem dependsOnE_char {e : Env} {mp : Mod} {pick : List WireId → Nat}
    {fuel : Nat} (o : WireId)
    (hok : ∀ o' ∈ mp.outputs, ∃ s, intraSeen e mp.id pick fuel o' = .ok s) :
    ∃ res, dependsOnE e mp pick fuel o = .ok res ∧
      ∀ i, (i ∈ res ↔ i ∈ mp.inputs ∧ o ∈ mp.outputs ∧
        IntraReaches e mp.id o i ∧ intraRecorded e mp.id o i) := by
  have hbody : ∀ i ∈ wlist mp.inputs, ∀ acc : Finset WireId,
      ((o ∈ mp.outputs ∧ IntraReaches e mp.id o i ∧ intraRecorded e mp.id o i) ∧
        (neededByE e mp pick fuel i).map
          (fun nb => if o ∈ nb then insert i acc else acc) = .ok (insert i acc)) ∨
      (¬ (o ∈ mp.outputs ∧ IntraReaches e mp.id o i ∧ intraRecorded e mp.id o i) ∧
        (neededByE e mp pick fuel i).map
          (fun nb => if o ∈ nb then insert i acc else acc) = .ok acc) := by
    intro i hi acc
    obtain ⟨nb, hnb, hnbmem⟩ := neededByE_char i hok
    rw [hnb]
    by_cases hc : o ∈ mp.outputs ∧ IntraReaches e mp.id o i ∧ intraRecorded e mp.id o i
    · refine Or.inl ⟨hc, ?_⟩
      simp only [Except.map]
      rw [if_pos ((hnbmem o).mpr hc)]
    · refine Or.inr ⟨hc, ?_⟩
      simp only [Except.map]
      rw [if_neg (fun hcc => hc ((hnbmem o).mp hcc))]
  obtain ⟨res, hres, hmemres⟩ :=
    foldlM_insert_ok (wlist mp.inputs)
      (fun i => o ∈ mp.outputs ∧ IntraReaches e mp.id o i ∧ intraRecorded e mp.id o i)
      (fun i => i) _ hbody ∅
  refine ⟨res, hres, ?_⟩
  intro i
  rw [hmemres i]
  constructor
  · rintro (h | ⟨c, hct, hcc, rfl⟩)
    · exact absurd h (Finset.not_mem_empty _)
    · exact ⟨mem_wlist.mp hct, hcc⟩
  · rintro ⟨hi, hrest⟩
    exact Or.inr ⟨i, mem_wlist.mpr hi, hrest, rfl⟩

/-- The intermodular traversal from an input completes, given a
well-behaved universe and enough fuel. -/
theorem interSeen_ok {e : Env} {pick : List WireId → Nat} {fuel : Nat}
    {V : Finset WireId} (hV : TravUniv (interExpand e) V) {i : WireId}
    (hiV : i ∈ V)
    (hfuel : (travBound (interExpand e) V + 1) * V.card + 2 ≤ fuel) :
    ∃ s, interSeen e pick fuel i = .ok s := by
  refine trav_term' hV ?_ ?_
  · intro a ha
    have h1 : a = i := List.mem_singleton.mp ha
    rw [h1]
    exact hiV
  · simpa using hfuel

/-- Characterization of `wires_to_inputs[w]`: assuming every input's
traversal completes, the entry at `w` is defined and holds exactly the
inputs (over the given modules) from which `w` is backward-reachable. -/
theorem wiresToInputsE_char {e : Env} {ms : List Mod} {pick : List WireId → Nat}
    {fuel : Nat} (w : WireId)
    (hok : ∀ m ∈ ms, ∀ i ∈ m.inputs, ∃ s, interSeen e pick fuel i = .ok s) :
    ∃ res, wiresToInputsE e ms pick fuel w = .ok res ∧
      ∀ y, (y ∈ res ↔ ∃ m ∈ ms, y ∈ m.inputs ∧ InterReaches e y w ∧ w ≠ y) := by
  suffices h : ∀ init : Finset WireId,
      ∃ res, ms.foldlM
        (fun acc m => (wlist m.inputs).foldlM
          (fun acc2 i => (interSeen e pick fuel i).map
            (fun s => if w ∈ s ∧ w ≠ i then insert i acc2 else acc2))
          acc)
        init = .ok res ∧
      ∀ y, (y ∈ res ↔ y ∈ init ∨
        ∃ m ∈ ms, y ∈ m.inputs ∧ InterReaches e y w ∧ w ≠ y) by
    obtain ⟨res, hres, hmem⟩ := h ∅
    refine ⟨res, hres, fun y => ?_⟩
    rw [hmem y]
    simp
  induction ms with
  | nil =>
    intro init
    exact ⟨init, rfl, by simp⟩
  | cons m t ih =>
    have hokm := hok m (List.mem_cons_self _ _)
    have ih' := ih (fun m' hm' => hok m' (List.mem_cons_of_mem _ hm'))
    intro init
    have hinner := foldlM_insert_ok (wlist m.inputs)
      (fun i => InterReaches e i w ∧ w ≠ i) (fun i => i)
      (fun acc2 i => (interSeen e pick fuel i).map
        (fun s => if w ∈ s ∧ w ≠ i then insert i acc2 else acc2))
      (by
        intro i hi acc
        dsimp only
        obtain ⟨s, hs⟩ := hokm i (mem_wlist.mp hi)
        have hsm := interSeen_mem_iff hs w
        rw [hs]
        by_cases hc : InterReaches e i w ∧ w ≠ i
        · refine Or.inl ⟨hc, ?_⟩
          simp only [Except.map]
          rw [if_pos ⟨hsm.mpr hc.1, hc.2⟩]
        · refine Or.inr ⟨hc, ?_⟩
          simp only [Except.map]
          rw [if_neg (fun hcc => hc ⟨hsm.mp hcc.1, hcc.2⟩)])
      init
    obtain ⟨mid, hmid, hmidmem⟩ := hinner
    obtain ⟨res, hres, hmem⟩ := ih' mid
    refine ⟨res, ?_, ?_⟩
    · rw [List.foldlM_cons, hmid]
      simpa using hres
    · intro y
      rw [hmem y, hmidmem y]
      constructor
      · rintro ((hy | ⟨i, hit, hic, rfl⟩) | ⟨m', hm't, hm'⟩)
        · exact Or.inl hy
        · exact Or.inr ⟨m, List.mem_cons_self _ _, mem_wlist.mp hit, hic⟩
        · exact Or.inr ⟨m', List.mem_cons_of_mem _ hm't, hm'⟩
      · rintro (hy | ⟨m', hm't, hm'⟩)
        · exact Or.inl (Or.inl hy)
        · rcases List.mem_cons.mp hm't with rfl | hm't'
          · exact Or.inl (Or.inr ⟨y, mem_wlist.mpr hm'.1, ⟨hm'.2.1, hm'.2.2⟩, rfl⟩)
          · exact Or.inr ⟨m', hm't', hm'⟩

/-- All per-output traversals of a module complete, given a well-behaved
universe and enough fuel. -/
theorem intraSeen_ok {e : Env} {mp : Mod} {pick : List WireId → Nat}
    {fuel : Nat} {U : Finset WireId}
    (hU : TravUniv (intraExpand e mp.id) U)
    (houtU : ∀ o ∈ mp.outputs, o ∈ U)
    (hfuel : (travBound (intraExpand e mp.id) U + 1) * U.card + 2 ≤ fuel) :
    ∀ o ∈ mp.outputs, ∃ s, intraSeen e mp.id pick fuel o = .ok s := by
  intro o ho
  refine trav_term' hU ?_ ?_
  · intro a ha
    have h1 : a = o := List.mem_singleton.mp ha
    rw [h1]
    exact houtU o ho
  · simpa using hfuel

/-- For `i` an input and `o` an output of a well-kinded module, the
recording guard of the intramodular traversal holds automatically. -/
theorem intraRecorded_of_kinds {e : Env} {mp : Mod} {i o : WireId}
    (hkin : ∀ i ∈ mp.inputs, e.kindOf i = .modInput)
    (hkout : ∀ o ∈ mp.outputs, e.kindOf o = .modOutput)
    (hinM : ∀ i ∈ mp.inputs, e.moduleOf i = mp.id)
    (hi : i ∈ mp.inputs) (ho : o ∈ mp.outputs) :
    intraRecorded e mp.id o i := by
  refine ⟨?_, ?_, hinM i hi⟩
  · intro hio
    subst hio
    have h1 := hkin i hi
    have h2 := hkout i ho
    rw [h1] at h2
    exact WKind.noConfusion h2
  · rw [hkin i hi]
    exact fun h => WKind.noConfusion h

/-- **C2.**  For a sealed, well-kinded module whose intramodular traversal
is well-behaved on a universe `U` and given enough fuel: a computed
`Needed(S)` sort on an input `i` has `S` exactly the outputs from which
`i` is backward-reachable through the module's non-register, non-absorbed
wiring (i.e. the outputs `i` combinationally reaches); a computed `Free`
sort means no output reaches it; and symmetrically a computed
`Dependent(D)` on an output `o` has `D` exactly the inputs it reaches
backward, with `Giving` meaning none.  (Both soundness and completeness:
the memberships are equivalences against the declarative
reflexive-transitive closure `IntraReaches` of the traversal step.) -/
theorem claim2_exact_reachability (e : Env) (mp : Mod) (U : Finset WireId)
    (pick : List WireId → Nat) (fuel : Nat)
    (hU : TravUniv (intraExpand e mp.id) U)
    (houtU : ∀ o ∈ mp.outputs, o ∈ U)
    (hkin : ∀ i ∈ mp.inputs, e.kindOf i = .modInput)
    (hkout : ∀ o ∈ mp.outputs, e.kindOf o = .modOutput)
    (hinM : ∀ i ∈ mp.inputs, e.moduleOf i = mp.id)
    (hfuel : (travBound (intraExpand e mp.id) U + 1) * U.card + 2 ≤ fuel) :
    (∀ i ∈ mp.inputs, ∀ S, makeWireSortE e mp pick fuel i = .ok (some (.needed S)) →
      ∀ o, (o ∈ S ↔ o ∈ mp.outputs ∧ IntraReaches e mp.id o i)) ∧
    (∀ i ∈ mp.inputs, makeWireSortE e mp pick fuel i = .ok (some .free) →
      ∀ o ∈ mp.outputs, ¬ IntraReaches e mp.id o i) ∧
    (∀ o ∈ mp.outputs, ∀ D, makeWireSortE e mp pick fuel o = .ok (some (.dependent D)) →
      ∀ i, (i ∈ D ↔ i ∈ mp.inputs ∧ IntraReaches e mp.id o i)) ∧
    (∀ o ∈ mp.outputs, makeWireSortE e mp pick fuel o = .ok (some .giving) →
      ∀ i ∈ mp.inputs, ¬ IntraReaches e mp.id o i) := by
  have hok := @intraSeen_ok e mp pick fuel U hU houtU hfuel
  refine ⟨?_, ?_, ?_, ?_⟩
  · intro i hi S hmk o
    obtain ⟨res, hres, hmem⟩ := neededByE_char i hok
    rw [makeWireSortE, if_pos (hkin i hi), hres] at hmk
    simp only [Except.map, Except.ok.injEq, Option.some.injEq] at hmk
    by_cases h0 : res = ∅
    · rw [if_pos h0] at hmk
      exact absurd hmk (fun h => WireSort.noConfusion h)
    · rw [if_neg h0] at hmk
      obtain rfl : res = S := WireSort.needed.inj hmk
      rw [hmem o]
      constructor
      · rintro ⟨ho, hr, _⟩
        exact ⟨ho, hr⟩
      · rintro ⟨ho, hr⟩
        exact ⟨ho, hr, intraRecorded_of_kinds hkin hkout hinM hi ho⟩
  · intro i hi hmk o ho hr
    obtain ⟨res, hres, hmem⟩ := neededByE_char i hok
    rw [makeWireSortE, if_pos (hkin i hi), hres] at hmk
    simp only [Except.map, Except.ok.injEq, Option.some.injEq] at hmk
    by_cases h0 : res = ∅
    · have : o ∈ res :=
        (hmem o).mpr ⟨ho, hr, intraRecorded_of_kinds hkin hkout hinM hi ho⟩
      rw [h0] at this
      exact absurd this (Finset.not_mem_empty _)
    · rw [if_neg h0] at hmk
      exact WireSort.noConfusion hmk
  · intro o ho D hmk i
    obtain ⟨res, hres, hmem⟩ := dependsOnE_char o hok
    have hkneq : ¬ e.kindOf o = .modInput := by
      rw [hkout o ho]
      exact fun h => WKind.noConfusion h
    rw [makeWireSortE, if_neg hkneq, if_pos (hkout o ho), hres] at hmk
    simp only [Except.map, Except.ok.injEq, Option.some.injEq] at hmk
    by_cases h0 : res = ∅
    · rw [if_pos h0] at hmk
      exact absurd hmk (fun h => WireSort.noConfusion h)
    · rw [if_neg h0] at hmk
      obtain rfl : res = D := WireSort.dependent.inj hmk
      rw [hmem i]
      constructor
      · rintro ⟨hi, _, hr, _⟩
        exact ⟨hi, hr⟩
      · rintro ⟨hi, hr⟩
        exact ⟨hi, ho, hr, intraRecorded_of_kinds hkin hkout hinM hi ho⟩
  · intro o ho hmk i hi hr
    obtain ⟨res, hres, hmem⟩ := dependsOnE_char o hok
    have hkneq : ¬ e.kindOf o = .modInput := by
      rw [hkout o ho]
      exact fun h => WKind.noConfusion h
    rw [makeWireSortE, if_neg hkneq, if_pos (hkout o ho), hres] at hmk
    simp only [Except.map, Except.ok.injEq, Option.some.injEq] at hmk
    by_cases h0 : res = ∅
    · have : i ∈ res :=
        (hmem i).mpr ⟨hi, ho, hr, intraRecorded_of_kinds hkin hkout hinM hi ho⟩
      rw [h0] at this
      exact absurd this (Finset.not_mem_empty _)
    · rw [if_neg h0] at hmk
      exact WireSort.noConfusion hmk

/-- **C9.**  Under the same well-behavedness assumptions, annotation is
total and canonical: every input receives exactly one sort, which is
`Free` (with an empty member set) or `Needed` with a *non-empty*
awaited-by set, and every output receives exactly one sort, `Giving` (with
an empty member set) or `Dependent` with a non-empty depends-on set. -/
theorem claim9_sort_totality (e : Env) (mp : Mod) (U : Finset WireId)
    (pick : List WireId → Nat) (fuel : Nat)
    (hU : TravUniv (intraExpand e mp.id) U)
    (houtU : ∀ o ∈ mp.outputs, o ∈ U)
    (hkin : ∀ i ∈ mp.inputs, e.kindOf i = .modInput)
    (hkout : ∀ o ∈ mp.outputs, e.kindOf o = .modOutput)
    (hfuel : (travBound (intraExpand e mp.id) U + 1) * U.card + 2 ≤ fuel) :
    (∀ i ∈ mp.inputs, ∃ srt, makeWireSortE e mp pick fuel i = .ok (some srt) ∧
      ((srt = .free ∧ srt.memberSet = ∅) ∨
        ∃ S, srt = .needed S ∧ S ≠ ∅ ∧ srt.memberSet = S)) ∧
    (∀ o ∈ mp.outputs, ∃ srt, makeWireSortE e mp pick fuel o = .ok (some srt) ∧
      ((srt = .giving ∧ srt.memberSet = ∅) ∨
        ∃ D, srt = .dependent D ∧ D ≠ ∅ ∧ srt.memberSet = D)) := by
  have hok := @intraSeen_ok e mp pick fuel U hU houtU hfuel
  constructor
  · intro i hi
    obtain ⟨res, hres, -⟩ := neededByE_char i hok
    refine ⟨if res = ∅ then .free else .needed res, ?_, ?_⟩
    · rw [makeWireSortE, if_pos (hkin i hi), hres]
      rfl
    · by_cases h0 : res = ∅
      · exact Or.inl ⟨by rw [if_pos h0], by rw [if_pos h0]; rfl⟩
      · exact Or.inr ⟨res, by rw [if_neg h0], h0, by rw [if_neg h0]; rfl⟩
  · intro o ho
    obtain ⟨res, hres, -⟩ := dependsOnE_char o hok
    have hkneq : ¬ e.kindOf o = .modInput := by
      rw [hkout o ho]
      exact fun h => WKind.noConfusion h
    refine ⟨if res = ∅ then .giving else .dependent res, ?_, ?_⟩
    · rw [makeWireSortE, if_neg hkneq, if_pos (hkout o ho), hres]
      rfl
    · by_cases h0 : res = ∅
      · exact Or.inl ⟨by rw [if_pos h0], by rw [if_pos h0]; rfl⟩
      · exact Or.inr ⟨res, by rw [if_neg h0], h0, by rw [if_neg h0]; rfl⟩

/-- **C8.**  The final maps computed by the two work-list traversals are
independent of the order in which wires are popped from the work lists:
for any two pop-order functions and any two sufficient fuels, both runs
terminate (`.ok`) and the `needed_by`, `depends_on` and `wires_to_inputs`
maps they produce are equal at every key. -/
theorem claim8_order_independent (e : Env) (mp : Mod) (ms : List Mod)
    (U V : Finset WireId)
    (pick1 pick2 : List WireId → Nat) (fuel1 fuel2 : Nat)
    (hU : TravUniv (intraExpand e mp.id) U)
    (houtU : ∀ o ∈ mp.outputs, o ∈ U)
    (hV : TravUniv (interExpand e) V)
    (hinV : ∀ m ∈ ms, ∀ i ∈ m.inputs, i ∈ V)
    (hfuel1 : (travBound (intraExpand e mp.id) U + 1) * U.card + 2 ≤ fuel1)
    (hfuel2 : (travBound (intraExpand e mp.id) U + 1) * U.card + 2 ≤ fuel2)
    (hfuel1' : (travBound (interExpand e) V + 1) * V.card + 2 ≤ fuel1)
    (hfuel2' : (travBound (interExpand e) V + 1) * V.card + 2 ≤ fuel2) :
    (∀ i, isOkE (neededByE e mp pick1 fuel1 i) = true ∧
      neededByE e mp pick1 fuel1 i = neededByE e mp pick2 fuel2 i) ∧
    (∀ o, isOkE (dependsOnE e mp pick1 fuel1 o) = true ∧
      dependsOnE e mp pick1 fuel1 o = dependsOnE e mp pick2 fuel2 o) ∧
    (∀ w, isOkE (wiresToInputsE e ms pick1 fuel1 w) = true ∧
      wiresToInputsE e ms pick1 fuel1 w = wiresToInputsE e ms pick2 fuel2 w) := by
  have hok1 := @intraSeen_ok e mp pick1 fuel1 U hU houtU hfuel1
  have hok2 := @intraSeen_ok e mp pick2 fuel2 U hU houtU hfuel2
  have hiok1 : ∀ m ∈ ms, ∀ i ∈ m.inputs, ∃ s, interSeen e pick1 fuel1 i = .ok s :=
    fun m hm i hi => interSeen_ok hV (hinV m hm i hi) hfuel1'
  have hiok2 : ∀ m ∈ ms, ∀ i ∈ m.inputs, ∃ s, interSeen e pick2 fuel2 i = .ok s :=
    fun m hm i hi => interSeen_ok hV (hinV m hm i hi) hfuel2'
  refine ⟨?_, ?_, ?_⟩
  · intro i
    obtain ⟨r1, h1, hm1⟩ := neededByE_char i hok1
    obtain ⟨r2, h2, hm2⟩ := neededByE_char i hok2
    have : r1 = r2 := Finset.ext fun o => (hm1 o).trans (hm2 o).symm
    rw [h1, h2, this]
    exact ⟨rfl, rfl⟩
  · intro o
    obtain ⟨r1, h1, hm1⟩ := dependsOnE_char o hok1
    obtain ⟨r2, h2, hm2⟩ := dependsOnE_char o hok2
    have : r1 = r2 := Finset.ext fun i => (hm1 i).trans (hm2 i).symm
    rw [h1, h2, this]
    exact ⟨rfl, rfl⟩
  · intro w
    obtain ⟨r1, h1, hm1⟩ := wiresToInputsE_char w hiok1
    obtain ⟨r2, h2, hm2⟩ := wiresToInputsE_char w hiok2
    have : r1 = r2 := Finset.ext fun y => (hm1 y).trans (hm2 y).symm
    rw [h1, h2, this]
    exact ⟨rfl, rfl⟩

/-!
## Concrete circuits used as witnesses and counterexamples
-/

/-- Python's `list.pop()`: pop the last element. -/
def pickLast : List WireId → Nat :=
  fun l => l.length - 1

/-- Module `N` of the spec's Scenario 2 (`r.next <<= a + 1; b <<= r * 4`):
wire 1 is the input `a`, wire 2 the sum, wire 3 the register `r`, wires 4
and 5 constants, wire 6 the output `b`.  Wires 7 and 8 are an unrelated
synchronous memory read (net `'m'`, `asynchronous=False`). -/
def envN : Env where
  nets := [⟨'+', [1, 5], [2], false⟩, ⟨'r', [2], [3], false⟩,
    ⟨'*', [3, 4], [6], false⟩, ⟨'m', [8], [7], false⟩]
  kindOf := fun w =>
    if w = 1 then .modInput
    else if w = 3 then .register
    else if w = 4 ∨ w = 5 then .const
    else if w = 6 then .modOutput
    else .regular
  moduleOf := fun _ => 0
  sortOf := fun _ => none
  originalName := fun w => if w = 1 then "a" else if w = 6 then "b" else "t"
  ascOf := fun _ => none
  strictOf := fun _ => false
  widthOf := fun _ => 4
  inDefinition := fun _ => false

/-- The boundary of module `N`. -/
def mpN : Mod := ⟨0, {1}, {6}⟩

/-- Module `M` of the spec's Scenario 1 (`b <<= a * 4`): wire 1 is the
input `a`, wire 2 the constant, wire 3 the output `b`. -/
def envM : Env where
  nets := [⟨'*', [1, 2], [3], false⟩]
  kindOf := fun w =>
    if w = 1 then .modInput
    else if w = 2 then .const
    else if w = 3 then .modOutput
    else .regular
  moduleOf := fun _ => 0
  sortOf := fun _ => none
  originalName := fun w => if w = 1 then "a" else if w = 3 then "b" else "t"
  ascOf := fun _ => none
  strictOf := fun _ => false
  widthOf := fun _ => 4
  inDefinition := fun _ => false

/-- The boundary of module `M`. -/
def mpM : Mod := ⟨0, {1}, {3}⟩

/-- The wire universe of module `M`. -/
def UM : Finset WireId := {1, 2, 3}

theorem bind_error {α β : Type} (err : Err) (f : α → Except Err β) :
    (Except.error err >>= f) = (.error err : Except Err β) := rfl

theorem bind_ok {α β : Type} (a : α) (f : α → Except Err β) :
    (Except.ok a >>= f) = f a := rfl

theorem awaitedOf_ok_eq {e : Env} {i : WireId} {s : Finset WireId}
    (h : awaitedOf e i = .ok s) : s = awaitedSet e i := by
  unfold awaitedOf at h
  unfold awaitedSet
  cases hs : e.sortOf i <;> rw [hs] at h
  · exact absurd h (by simp)
  · case some srt =>
    cases srt
    · simpa using (Except.ok.inj h).symm
    · simpa using (Except.ok.inj h).symm
    · exact absurd h (by simp)
    · exact absurd h (by simp)

theorem awaitedOf_ok_of_sort {e : Env} {i : WireId}
    (h : isInputSort (e.sortOf i) = true) :
    awaitedOf e i = .ok (awaitedSet e i) := by
  unfold awaitedOf awaitedSet
  cases hs : e.sortOf i <;> rw [hs] at h
  · exact absurd h (by simp [isInputSort])
  · case some srt =>
    cases srt
    · rfl
    · rfl
    · exact absurd h (by simp [isInputSort])
    · exact absurd h (by simp [isInputSort])

/-- Characterization of the `to_check.add` fold that gathers the awaiting
outputs of the module inputs found by one `_modular_forward_reachability`
iteration. -/
theorem foldlM_append_char {β : Type} (g : β → Except Err (Finset WireId)) :
    ∀ (l : List β) (init r : List WireId),
    l.foldlM (fun acc b => (g b).map (fun s => acc ++ wlist s)) init = .ok r →
    (∀ b ∈ l, ∃ s, g b = .ok s) ∧
    (∀ y, (y ∈ r ↔ y ∈ init ∨ ∃ b ∈ l, ∃ s, g b = .ok s ∧ y ∈ s)) := by
  intro l
  induction l with
  | nil =>
    intro init r h
    obtain rfl : init = r := Except.ok.inj h
    exact ⟨by simp, by simp⟩
  | cons b t ih =>
    intro init r h
    rw [List.foldlM_cons] at h
    cases hg : g b with
    | error err =>
      rw [hg] at h
      simp only [Except.map] at h
      rw [bind_error] at h
      exact Except.noConfusion h
    | ok s0 =>
      rw [hg] at h
      simp only [Except.map] at h
      rw [bind_ok] at h
      obtain ⟨hall, hmem⟩ := ih (init ++ wlist s0) r h
      refine ⟨?_, ?_⟩
      · intro c hc
        rcases List.mem_cons.mp hc with rfl | hc'
        · exact ⟨s0, hg⟩
        · exact hall c hc'
      · intro y
        rw [hmem y]
        simp only [List.mem_append, mem_wlist]
        constructor
        · rintro ((hy | hy) | ⟨c, hct, s, hgs, hys⟩)
          · exact Or.inl hy
          · exact Or.inr ⟨b, List.mem_cons_self _ _, s0, hg, hy⟩
          · exact Or.inr ⟨c, List.mem_cons_of_mem _ hct, s, hgs, hys⟩
        · rintro (hy | ⟨c, hct, s, hgs, hys⟩)
          · exact Or.inl (Or.inl hy)
          · rcases List.mem_cons.mp hct with rfl | hct'
            · obtain rfl : s0 = s := by
                have := hg.symm.trans hgs
                exact Except.ok.inj this
              exact Or.inl (Or.inr hys)
            · exact Or.inr ⟨c, hct', s, hgs, hys⟩

/-- The gathering fold succeeds whenever each read succeeds. -/
theorem foldlM_append_ok {β : Type} (g : β → Except Err (Finset WireId)) :
    ∀ (l : List β), (∀ b ∈ l, ∃ s, g b = .ok s) →
    ∀ init, ∃ r, l.foldlM (fun acc b => (g b).map (fun s => acc ++ wlist s)) init = .ok r := by
  intro l
  induction l with
  | nil => intro _ init; exact ⟨init, rfl⟩
  | cons b t ih =>
    intro hall init
    obtain ⟨s0, hg⟩ := hall b (List.mem_cons_self _ _)
    obtain ⟨r, hr⟩ := ih (fun c hc => hall c (List.mem_cons_of_mem _ hc)) (init ++ wlist s0)
    refine ⟨r, ?_⟩
    rw [List.foldlM_cons, hg]
    simp only [Except.map]
    rw [bind_ok]
    exact hr

/-- `_modular_affects_iter` can fail only by fuel exhaustion. -/
theorem modularAffects_error {e : Env} {pick : List WireId → Nat} {fuel : Nat}
    {w : WireId} {err : Err}
    (h : modularAffects e pick fuel w = .error err) : err = .outOfFuel := by
  unfold modularAffects at h
  by_cases hstop : stopKindH e w = true
  · rw [if_pos hstop] at h
    exact absurd h (by simp)
  · rw [if_neg hstop] at h
    by_cases hdst : e.dstMap w = []
    · rw [if_pos hdst] at h
      exact absurd h (by simp)
    · rw [if_neg hdst] at h
      exact travE_error_fuel (fun x => affectsExpand_ok e x) h

/-- Under global input-sort availability, `_modular_forward_reachability`
can fail only by fuel exhaustion. -/
theorem modularForwardE_error {e : Env} {pick : List WireId → Nat} {innerFuel : Nat}
    (hsorts : ∀ w, e.kindOf w = .modInput → isInputSort (e.sortOf w) = true) :
    ∀ {oF : Nat} {work : List WireId} {acc : Finset WireId} {err : Err},
    modularForwardE e pick innerFuel oF work acc = .error err → err = .outOfFuel := by
  intro oF
  induction oF with
  | zero =>
    intro work acc err h
    simp only [modularForwardE, Except.error.injEq] at h
    exact h.symm
  | succ n ih =>
    intro work acc err h
    match work with
    | [] => simp [modularForwardE] at h
    | a :: rest =>
      rw [modularForwardE] at h
      split at h
      · case _ err' heq =>
        obtain rfl : err' = err := Except.error.inj h
        exact modularAffects_error heq
      · case _ aff heq =>
        dsimp only at h
        split at h
        · case _ err' heq2 =>
          obtain rfl : err' = err := Except.error.inj h
          have hallok : ∀ i ∈ wlist (aff.filter (fun x => e.kindOf x = .modInput)),
              ∃ s, awaitedOf e i = .ok s := by
            intro i hi
            have hik : e.kindOf i = .modInput :=
              (Finset.mem_filter.mp (mem_wlist.mp hi)).2
            exact ⟨awaitedSet e i, awaitedOf_ok_of_sort (hsorts i hik)⟩
          obtain ⟨newW, hnewW⟩ := foldlM_append_ok (awaitedOf e) _ hallok []
          rw [hnewW] at heq2
          exact absurd heq2 (by simp)
        · case _ newW heq2 =>
          exact ih h

/-- Any forward path decomposes as an ordinary-wiring prefix followed,
optionally, by a first module jump. -/
theorem hreach_decompose {e : Env} {w x : WireId} (h : HReach e w x) :
    Relation.ReflTransGen (ordStepH e) w x ∨
    ∃ i o, Relation.ReflTransGen (ordStepH e) w i ∧ e.kindOf i = .modInput ∧
      o ∈ awaitedSet e i ∧ HReach e o x := by
  induction h using Relation.ReflTransGen.head_induction_on with
  | refl => exact Or.inl Relation.ReflTransGen.refl
  | head hstep htail ih =>
    rcases hstep with hord | ⟨hk, hb⟩
    · rcases ih with h1 | ⟨i, o, hpre, hki, ho, hrest⟩
      · exact Or.inl (Relation.ReflTransGen.head hord h1)
      · exact Or.inr ⟨i, o, Relation.ReflTransGen.head hord hpre, hki, ho, hrest⟩
    · exact Or.inr ⟨_, _, Relation.ReflTransGen.refl, hk, hb, htail⟩

/-- Soundness of `_modular_forward_reachability`: everything accumulated
is either initial or a module input forward-reachable from the work
list. -/
theorem modularForwardE_sound {e : Env} {pick : List WireId → Nat}
    {innerFuel : Nat} :
    ∀ {oF : Nat} {work : List WireId} {acc res : Finset WireId},
    modularForwardE e pick innerFuel oF work acc = .ok res →
    ∀ x ∈ res, x ∈ acc ∨ (e.kindOf x = .modInput ∧ ∃ s ∈ work, HReach e s x) := by
  intro oF
  induction oF with
  | zero => intro work acc res h; simp [modularForwardE] at h
  | succ n ih =>
    intro work acc res h
    match work with
    | [] =>
      obtain rfl : acc = res := by simpa [modularForwardE] using h
      intro x hx
      exact Or.inl hx
    | a :: rest =>
      rw [modularForwardE] at h
      have hperm := perm_pop a rest pick
      have hwmem : (a :: rest).getD (pick (a :: rest) % (rest.length + 1)) a ∈
          a :: rest := hperm.mem_iff.mpr (List.mem_cons_self _ _)
      have hsubW : ∀ z ∈ (a :: rest).eraseIdx (pick (a :: rest) % (rest.length + 1)),
          z ∈ a :: rest := fun z hz => hperm.mem_iff.mpr (List.mem_cons_of_mem _ hz)
      split at h
      · exact absurd h (by simp)
      · case _ aff heq =>
        dsimp only at h
        split at h
        · exact absurd h (by simp)
        · case _ newW heq2 =>
          intro x hx
          rcases ih h x hx with hacc | ⟨hk, s, hs, hr⟩
          · rcases Finset.mem_union.mp hacc with h1 | h2
            · exact Or.inl h1
            · have hk := (Finset.mem_filter.mp h2).2
              have hxa := (Finset.mem_filter.mp h2).1
              refine Or.inr ⟨hk, _, hwmem, ?_⟩
              exact Relation.ReflTransGen.mono (fun u v huv => Or.inl huv)
                ((modularAffects_mem heq hk).mp hxa)
          · rcases List.mem_append.mp hs with h1 | h2
            · exact Or.inr ⟨hk, s, hsubW s h1, hr⟩
            · obtain ⟨-, hmemW⟩ := foldlM_append_char (awaitedOf e) _ [] newW heq2
              rcases (hmemW s).mp h2 with hnil | ⟨i, hi, s', hgs, hss⟩
              · exact absurd hnil (List.not_mem_nil _)
              · have hik := (Finset.mem_filter.mp (mem_wlist.mp hi)).2
                have hia := (Finset.mem_filter.mp (mem_wlist.mp hi)).1
                have hwi := (modularAffects_mem heq hik).mp hia
                have hjump : hStep e i s :=
                  Or.inr ⟨hik, (awaitedOf_ok_eq hgs) ▸ hss⟩
                refine Or.inr ⟨hk, _, hwmem, ?_⟩
                exact (Relation.ReflTransGen.mono (fun u v huv => Or.inl huv) hwi).trans
                  (Relation.ReflTransGen.head hjump hr)

/-- Completeness of `_modular_forward_reachability`: when the loop
completes, the accumulator is preserved and every forward-reachable
module input of every work-list wire is present. -/
theorem modularForwardE_complete {e : Env} {pick : List WireId → Nat}
    {innerFuel : Nat} :
    ∀ {oF : Nat} {work : List WireId} {acc res : Finset WireId},
    modularForwardE e pick innerFuel oF work acc = .ok res →
    (∀ x ∈ acc, x ∈ res) ∧
    (∀ w ∈ work, ∀ x, e.kindOf x = .modInput → HReach e w x → x ∈ res) := by
  intro oF
  induction oF with
  | zero => intro work acc res h; simp [modularForwardE] at h
  | succ n ih =>
    intro work acc res h
    match work with
    | [] =>
      obtain rfl : acc = res := by simpa [modularForwardE] using h
      exact ⟨fun x hx => hx, by simp⟩
    | a :: rest =>
      rw [modularForwardE] at h
      have hperm := perm_pop a rest pick
      split at h
      · exact absurd h (by simp)
      · case _ aff heq =>
        dsimp only at h
        split at h
        · exact absurd h (by simp)
        · case _ newW heq2 =>
          have IH := ih h
          refine ⟨fun x hx => IH.1 x (Finset.mem_union_left _ hx), ?_⟩
          intro w' hw' x hk hr
          have hcase : w' = (a :: rest).getD (pick (a :: rest) % (rest.length + 1)) a ∨
              w' ∈ (a :: rest).eraseIdx (pick (a :: rest) % (rest.length + 1)) :=
            List.mem_cons.mp (hperm.mem_iff.mp hw')
          rcases hcase with rfl | hw''
          · rcases hreach_decompose hr with hord | ⟨i, o, hpre, hki, ho, hrest⟩
            · have hxa := (modularAffects_mem heq hk).mpr hord
              exact IH.1 x (Finset.mem_union_right _
                (Finset.mem_filter.mpr ⟨hxa, hk⟩))
            · have hia := (modularAffects_mem heq hki).mpr hpre
              have himinp : i ∈ aff.filter (fun y => e.kindOf y = .modInput) :=
                Finset.mem_filter.mpr ⟨hia, hki⟩
              obtain ⟨hall, hmemW⟩ := foldlM_append_char (awaitedOf e) _ [] newW heq2
              obtain ⟨s', hgs⟩ := hall i (mem_wlist.mpr himinp)
              have ho' : o ∈ s' := by
                rw [awaitedOf_ok_eq hgs]
                exact ho
              have honew : o ∈ newW :=
                (hmemW o).mpr (Or.inr ⟨i, mem_wlist.mpr himinp, s', hgs, ho'⟩)
              exact IH.2 o (List.mem_append_right _ honew) x hk hrest
          · exact IH.2 w' (List.mem_append_left _ hw'') x hk hr

/-- The entry characterization: a completed
`_modular_forward_reachability(d0, module)` run returns exactly the
module inputs forward-reachable from `d0`. -/
theorem modularForwardE_char {e : Env} {pick : List WireId → Nat}
    {innerFuel oF : Nat} {d0 : WireId} {res : Finset WireId}
    (hrun : modularForwardE e pick innerFuel oF [d0] ∅ = .ok res) (x : WireId) :
    x ∈ res ↔ (e.kindOf x = .modInput ∧ HReach e d0 x) := by
  constructor
  · intro hx
    rcases modularForwardE_sound hrun x hx with h0 | ⟨hk, s, hs, hr⟩
    · exact absurd h0 (Finset.not_mem_empty _)
    · obtain rfl : s = d0 := List.mem_singleton.mp hs
      exact ⟨hk, hr⟩
  · rintro ⟨hk, hr⟩
    exact (modularForwardE_complete hrun).2 d0 (List.mem_singleton_self _) x hk hr

/-- Trichotomy for a `foldlM` of unit checks: either every item passes,
or some item raises the designated error, or fuel ran out somewhere. -/
theorem foldlM_unit_cases {β : Type} (g : β → Except Err Unit) (cond : β → Prop)
    (E : Err) :
    ∀ l : List β,
    (∀ b ∈ l, (g b = .ok () ∧ ¬ cond b) ∨ (g b = .error E ∧ cond b) ∨
      (g b = .error .outOfFuel)) →
    (l.foldlM (fun _ b => g b) () = .ok () ∧ ∀ b ∈ l, ¬ cond b) ∨
    (l.foldlM (fun _ b => g b) () = .error E ∧ ∃ b ∈ l, cond b) ∨
    (l.foldlM (fun _ b => g b) () = .error .outOfFuel) := by
  intro l
  induction l with
  | nil =>
    intro _
    exact Or.inl ⟨rfl, by simp⟩
  | cons b t ih =>
    intro hg
    rcases hg b (List.mem_cons_self _ _) with ⟨hok, hcond⟩ | ⟨herr, hcond⟩ | herr
    · have heq : (b :: t).foldlM (fun _ c => g c) () =
          t.foldlM (fun _ c => g c) () := by
        rw [List.foldlM_cons]
        show g b >>= (fun u => t.foldlM (fun _ c => g c) u) = _
        rw [hok, bind_ok]
      rw [heq]
      rcases ih (fun c hc => hg c (List.mem_cons_of_mem _ hc)) with
        ⟨h1, h2⟩ | ⟨h1, c, hct, hcc⟩ | h1
      · refine Or.inl ⟨h1, ?_⟩
        intro c hc
        rcases List.mem_cons.mp hc with rfl | hc'
        · exact hcond
        · exact h2 c hc'
      · exact Or.inr (Or.inl ⟨h1, c, List.mem_cons_of_mem _ hct, hcc⟩)
      · exact Or.inr (Or.inr h1)
    · have heq : (b :: t).foldlM (fun _ c => g c) () = .error E := by
        rw [List.foldlM_cons]
        show g b >>= (fun u => t.foldlM (fun _ c => g c) u) = _
        rw [herr, bind_error]
      exact Or.inr (Or.inl ⟨heq, b, List.mem_cons_self _ _, hcond⟩)
    · have heq : (b :: t).foldlM (fun _ c => g c) () = .error .outOfFuel := by
        rw [List.foldlM_cons]
        show g b >>= (fun u => t.foldlM (fun _ c => g c) u) = _
        rw [herr, bind_error]
      exact Or.inr (Or.inr heq)

/-- Forward reachability out of a module output decomposes through the
nets consuming it (an output is not a stop kind, and cannot jump). -/
theorem hreach_out_iff {e : Env} {n r : WireId}
    (hkn : e.kindOf n = .modOutput) (hkr : e.kindOf r = .modInput) :
    HReach e n r ↔
      ∃ net ∈ e.dstMap n, ∃ d0, net.dests.head? = some d0 ∧ HReach e d0 r := by
  constructor
  · intro h
    rcases Relation.ReflTransGen.cases_head h with heq | ⟨c, hc, hcr⟩
    · exfalso
      rw [heq] at hkn
      rw [hkn] at hkr
      exact WKind.noConfusion hkr
    · rcases hc with ⟨-, net, hnet, hd⟩ | ⟨hkn', -⟩
      · exact ⟨net, hnet, c, hd, hcr⟩
      · rw [hkn] at hkn'
        exact WKind.noConfusion hkn'
  · rintro ⟨net, hnet, d0, hd, hr⟩
    refine Relation.ReflTransGen.head (Or.inl ⟨?_, net, hnet, hd⟩) hr
    simp [stopKindH, hkn]

/-- Trichotomy for the innermost net check. -/
theorem connNetCheck_cases {e : Env} {pick : List WireId → Nat}
    {innerFuel outerFuel : Nat} {msg : String} {r : WireId}
    (hsorts : ∀ w, e.kindOf w = .modInput → isInputSort (e.sortOf w) = true)
    (hkr : e.kindOf r = .modInput) (net : Net) (hd : net.dests ≠ []) :
    (connNetCheck e pick innerFuel outerFuel msg r net = .ok () ∧
      ¬ ∃ d0, net.dests.head? = some d0 ∧ HReach e d0 r) ∨
    (connNetCheck e pick innerFuel outerFuel msg r net = .error (.pyrtlError msg) ∧
      ∃ d0, net.dests.head? = some d0 ∧ HReach e d0 r) ∨
    (connNetCheck e pick innerFuel outerFuel msg r net = .error .outOfFuel) := by
  obtain ⟨d0, hd0⟩ : ∃ d0, net.dests.head? = some d0 := by
    cases hh : net.dests with
    | nil => exact absurd hh hd
    | cons a t => exact ⟨a, by simp⟩
  have hcn : connNetCheck e pick innerFuel outerFuel msg r net =
      match modularForwardE e pick innerFuel outerFuel [d0] ∅ with
      | .error err => .error err
      | .ok desc =>
        if r ∈ insert d0 desc then .error (.pyrtlError msg) else .ok () := by
    unfold connNetCheck
    rw [hd0]
  cases hm : modularForwardE e pick innerFuel outerFuel [d0] ∅ with
  | error err =>
    obtain rfl : err = Err.outOfFuel := modularForwardE_error hsorts hm
    refine Or.inr (Or.inr ?_)
    rw [hcn, hm]
  | ok desc =>
    have hchar := modularForwardE_char hm
    by_cases hin : r ∈ insert d0 desc
    · refine Or.inr (Or.inl ⟨?_, d0, hd0, ?_⟩)
      · rw [hcn, hm]
        exact if_pos hin
      · rcases Finset.mem_insert.mp hin with heq | hdesc
        · rw [heq]
          exact Relation.ReflTransGen.refl
        · exact ((hchar r).mp hdesc).2
    · refine Or.inl ⟨?_, ?_⟩
      · rw [hcn, hm]
        exact if_neg hin
      · rintro ⟨d0', hd0', hr⟩
        rw [hd0] at hd0'
        obtain rfl : d0 = d0' := Option.some.inj hd0'
        exact hin (Finset.mem_insert_of_mem ((hchar r).mpr ⟨hkr, hr⟩))

/-- Trichotomy for the per-pair check: it accepts exactly when the
required wire is not forward-reachable from the awaiting wire (or fuel
ran out). -/
theorem connPairCheck_cases {e : Env} {pick : List WireId → Nat}
    {innerFuel outerFuel : Nat} {msg : String} {r n : WireId}
    (hsorts : ∀ w, e.kindOf w = .modInput → isInputSort (e.sortOf w) = true)
    (hkr : e.kindOf r = .modInput) (hkn : e.kindOf n = .modOutput)
    (hdest : ∀ net ∈ e.dstMap n, net.dests ≠ []) :
    (connPairCheck e pick innerFuel outerFuel msg r n = .ok () ∧ ¬ HReach e n r) ∨
    (connPairCheck e pick innerFuel outerFuel msg r n = .error (.pyrtlError msg) ∧
      HReach e n r) ∨
    (connPairCheck e pick innerFuel outerFuel msg r n = .error .outOfFuel) := by
  unfold connPairCheck
  rw [if_neg (not_not_intro hkr), if_neg (not_not_intro hkn)]
  by_cases hempty : e.dstMap n = []
  · rw [if_pos hempty]
    refine Or.inl ⟨rfl, ?_⟩
    intro hr
    obtain ⟨net, hnet, -⟩ := (hreach_out_iff hkn hkr).mp hr
    rw [hempty] at hnet
    exact List.not_mem_nil _ hnet
  · rw [if_neg hempty]
    have htri := foldlM_unit_cases (connNetCheck e pick innerFuel outerFuel msg r)
      (fun net => ∃ d0, net.dests.head? = some d0 ∧ HReach e d0 r)
      (.pyrtlError msg) (e.dstMap n)
      (fun net hnet => connNetCheck_cases hsorts hkr net (hdest net hnet))
    rcases htri with ⟨hfold, hall⟩ | ⟨hfold, net, hnet, hcond⟩ | hfold
    · refine Or.inl ⟨hfold, ?_⟩
      intro hr
      obtain ⟨net, hnet, d0, hd0, hrr⟩ := (hreach_out_iff hkn hkr).mp hr
      exact hall net hnet ⟨d0, hd0, hrr⟩
    · exact Or.inr (Or.inl ⟨hfold, (hreach_out_iff hkn hkr).mpr ⟨net, hnet, hcond⟩⟩)
    · exact Or.inr (Or.inr hfold)

/-- **C1, amended.**  For a proposed connection from module output
`fromWire` to module input `toWire`, with `R` the output's requires
(depends-on) set — empty if `Giving` — and `N` the input's awaited-by
set — empty if `Free` — the eager well-connectedness check
`error_if_not_well_connected` rejects with the connection error *iff*
`toWire ∈ R` (the input is among the output's dependencies), or
`fromWire ∈ N` (the 1-hop loop), or some `r ∈ R` is reachable from some
`n ∈ N` through the forward traversal relation `HReach`: for every net
consuming a wire, its first destination is followed, stopping only at
the `ModInput`/`Const`/`Register`/`Input`/`Output` wire *classes* and
jumping module interiors by `Needed` sort.  Because the stopping test is
on wire classes only, `HReach` crosses non-asynchronous memory reads, so
this reachability is *not* the spec's combinational reachability (the
original claim's wording; see the counterexample).  In every other case
the check accepts (returns without raising).  Hypotheses: the endpoint
kinds and sort variants satisfy the function's entry assertions; every
module input in the circuit carries an input sort (annotation has run);
the member sets are well-kinded; nets consuming awaited outputs have
destinations (without this the code instead crashes with `IndexError`,
another case where the original "accepted otherwise" fails); the 1-hop
memberships are mutually consistent (as the annotator guarantees,
`toWire ∈ R ↔ fromWire ∈ N`); and the run does not exhaust its fuel (the
embedding artefact for Python loop divergence). -/
theorem claim1_amended (e : Env) (toWire fromWire : WireId)
    (pick : List WireId → Nat) (innerFuel outerFuel : Nat)
    (hki : e.kindOf toWire = .modInput)
    (hko : e.kindOf fromWire = .modOutput)
    (hsi : isInputSort (e.sortOf toWire) = true)
    (hso : isOutputSort (e.sortOf fromWire) = true)
    (hsorts : ∀ w, e.kindOf w = .modInput → isInputSort (e.sortOf w) = true)
    (hNk : ∀ n ∈ awaitedSet e toWire, e.kindOf n = .modOutput)
    (hRk : ∀ r ∈ requiresSet e fromWire, e.kindOf r = .modInput)
    (hdest : ∀ n ∈ awaitedSet e toWire, ∀ net ∈ e.dstMap n, net.dests ≠ [])
    (htriv : toWire ∈ requiresSet e fromWire ↔ fromWire ∈ awaitedSet e toWire)
    (hterm : errorIfNotWellConnectedE e toWire fromWire pick innerFuel outerFuel ≠
      .error .outOfFuel) :
    (errorIfNotWellConnectedE e toWire fromWire pick innerFuel outerFuel =
        .error (.pyrtlError (connErrMsg e toWire fromWire)) ↔
      (toWire ∈ requiresSet e fromWire ∨ fromWire ∈ awaitedSet e toWire ∨
        ∃ r ∈ requiresSet e fromWire, ∃ n ∈ awaitedSet e toWire, HReach e n r)) ∧
    (errorIfNotWellConnectedE e toWire fromWire pick innerFuel outerFuel = .ok () ↔
      ¬(toWire ∈ requiresSet e fromWire ∨ fromWire ∈ awaitedSet e toWire ∨
        ∃ r ∈ requiresSet e fromWire, ∃ n ∈ awaitedSet e toWire, HReach e n r)) := by
  cases hst : e.sortOf toWire with
  | none => rw [hst] at hsi; exact absurd hsi (by simp [isInputSort])
  | some si =>
  cases hsf : e.sortOf fromWire with
  | none => rw [hsf] at hso; exact absurd hso (by simp [isOutputSort])
  | some so =>
  have hN : ∀ nset, si = .needed nset → awaitedSet e toWire = nset := by
    intro nset hn
    unfold awaitedSet
    rw [hst, hn]
  have hNfree : si = .free → awaitedSet e toWire = ∅ := by
    intro hn
    unfold awaitedSet
    rw [hst, hn]
  have hR : ∀ rset, so = .dependent rset → requiresSet e fromWire = rset := by
    intro rset hr
    unfold requiresSet
    rw [hsf, hr]
  have hRgiving : so = .giving → requiresSet e fromWire = ∅ := by
    intro hr
    unfold requiresSet
    rw [hsf, hr]
  cases si with
  | giving => rw [hst] at hsi; exact absurd hsi (by simp [isInputSort])
  | dependent s => rw [hst] at hsi; exact absurd hsi (by simp [isInputSort])
  | free =>
    -- N = ∅: no check runs and the claim's condition is unsatisfiable.
    have hN0 := hNfree rfl
    have hg3 : ¬((!isInputSort (e.sortOf toWire)) = true) := by
      rw [hsi]; decide
    have hg4 : ¬((!isOutputSort (e.sortOf fromWire)) = true) := by
      rw [hso]; decide
    have hcheck : errorIfNotWellConnectedE e toWire fromWire pick innerFuel outerFuel =
        .ok () := by
      unfold errorIfNotWellConnectedE
      rw [if_neg (not_not_intro hki), if_neg (not_not_intro hko),
        if_neg hg3, if_neg hg4, hst, hsf]
    have hB : ¬(toWire ∈ requiresSet e fromWire ∨ fromWire ∈ awaitedSet e toWire ∨
        ∃ r ∈ requiresSet e fromWire, ∃ n ∈ awaitedSet e toWire, HReach e n r) := by
      rintro (h1 | h2 | ⟨r, hr, n, hn, -⟩)
      · have := htriv.mp h1
        rw [hN0] at this
        exact Finset.not_mem_empty _ this
      · rw [hN0] at h2
        exact Finset.not_mem_empty _ h2
      · rw [hN0] at hn
        exact Finset.not_mem_empty _ hn
    constructor
    · rw [hcheck]
      exact ⟨fun h => Except.noConfusion h, fun h => absurd h hB⟩
    · rw [hcheck]
      exact ⟨fun _ => hB, fun _ => rfl⟩
  | needed nset =>
    have hN0 := hN nset rfl
    cases so with
    | free => rw [hsf] at hso; exact absurd hso (by simp [isOutputSort])
    | needed s => rw [hsf] at hso; exact absurd hso (by simp [isOutputSort])
    | giving =>
      -- R = ∅: again no check and no satisfiable condition.
      have hR0 := hRgiving rfl
      have hg3 : ¬((!isInputSort (e.sortOf toWire)) = true) := by
        rw [hsi]; decide
      have hg4 : ¬((!isOutputSort (e.sortOf fromWire)) = true) := by
        rw [hso]; decide
      have hcheck : errorIfNotWellConnectedE e toWire fromWire pick innerFuel
          outerFuel = .ok () := by
        unfold errorIfNotWellConnectedE
        rw [if_neg (not_not_intro hki), if_neg (not_not_intro hko),
          if_neg hg3, if_neg hg4, hst, hsf]
      have hB : ¬(toWire ∈ requiresSet e fromWire ∨ fromWire ∈ awaitedSet e toWire ∨
          ∃ r ∈ requiresSet e fromWire, ∃ n ∈ awaitedSet e toWire, HReach e n r) := by
        rintro (h1 | h2 | ⟨r, hr, n, hn, -⟩)
        · rw [hR0] at h1
          exact Finset.not_mem_empty _ h1
        · have := htriv.mpr h2
          rw [hR0] at this
          exact Finset.not_mem_empty _ this
        · rw [hR0] at hr
          exact Finset.not_mem_empty _ hr
      constructor
      · rw [hcheck]
        exact ⟨fun h => Except.noConfusion h, fun h => absurd h hB⟩
      · rw [hcheck]
        exact ⟨fun _ => hB, fun _ => rfl⟩
    | dependent rset =>
      have hR0 := hR rset rfl
      rw [hR0, hN0] at htriv
      rw [hR0, hN0]
      rw [hN0] at hNk hdest
      rw [hR0] at hRk
      have hg3 : ¬((!isInputSort (e.sortOf toWire)) = true) := by
        rw [hsi]; decide
      have hg4 : ¬((!isOutputSort (e.sortOf fromWire)) = true) := by
        rw [hso]; decide
      have hcheck0 : errorIfNotWellConnectedE e toWire fromWire pick innerFuel
          outerFuel =
          (if toWire ∈ rset ∨ fromWire ∈ nset then
            .error (.pyrtlError (connErrMsg e toWire fromWire))
          else
            (wlist rset).foldlM
              (fun _ r => (wlist nset).foldlM
                (fun _ n => connPairCheck e pick innerFuel outerFuel
                  (connErrMsg e toWire fromWire) r n)
                ())
              ()) := by
        unfold errorIfNotWellConnectedE
        rw [if_neg (not_not_intro hki), if_neg (not_not_intro hko),
          if_neg hg3, if_neg hg4, hst, hsf]
      by_cases htc : toWire ∈ rset ∨ fromWire ∈ nset
      · have hcheck : errorIfNotWellConnectedE e toWire fromWire pick innerFuel
            outerFuel = .error (.pyrtlError (connErrMsg e toWire fromWire)) := by
          rw [hcheck0, if_pos htc]
        have hB : toWire ∈ rset ∨ fromWire ∈ nset ∨
            ∃ r ∈ rset, ∃ n ∈ nset, HReach e n r := by
          rcases htc with h1 | h2
          · exact Or.inl h1
          · exact Or.inr (Or.inl h2)
        constructor
        · rw [hcheck]
          exact ⟨fun _ => hB, fun _ => rfl⟩
        · rw [hcheck]
          exact ⟨fun h => Except.noConfusion h, fun h => absurd hB h⟩
      · have hcheck : errorIfNotWellConnectedE e toWire fromWire pick innerFuel
            outerFuel =
            (wlist rset).foldlM
              (fun _ r => (wlist nset).foldlM
                (fun _ n => connPairCheck e pick innerFuel outerFuel
                  (connErrMsg e toWire fromWire) r n)
                ())
              () := by
          rw [hcheck0, if_neg htc]
        have houter := foldlM_unit_cases
          (fun r => (wlist nset).foldlM
            (fun _ n => connPairCheck e pick innerFuel outerFuel
              (connErrMsg e toWire fromWire) r n)
            ())
          (fun r => ∃ n ∈ nset, HReach e n r)
          (.pyrtlError (connErrMsg e toWire fromWire))
          (wlist rset)
          (by
            intro r hr
            have hkr := hRk r (mem_wlist.mp hr)
            have hinner := foldlM_unit_cases
              (fun n => connPairCheck e pick innerFuel outerFuel
                (connErrMsg e toWire fromWire) r n)
              (fun n => HReach e n r)
              (.pyrtlError (connErrMsg e toWire fromWire))
              (wlist nset)
              (fun n hn => connPairCheck_cases hsorts hkr
                (hNk n (mem_wlist.mp hn)) (hdest n (mem_wlist.mp hn)))
            rcases hinner with ⟨hfold, hall⟩ | ⟨hfold, n, hn, hc⟩ | hfold
            · refine Or.inl ⟨hfold, ?_⟩
              rintro ⟨n, hn, hrch⟩
              exact hall n (mem_wlist.mpr hn) hrch
            · exact Or.inr (Or.inl ⟨hfold, n, mem_wlist.mp hn, hc⟩)
            · exact Or.inr (Or.inr hfold))
        rcases houter with ⟨hfold, hall⟩ | ⟨hfold, r, hrm, hc⟩ | hfold
        · have hchk : errorIfNotWellConnectedE e toWire fromWire pick innerFuel
              outerFuel = .ok () := by
            rw [hcheck]
            exact hfold
          have hB : ¬(toWire ∈ rset ∨ fromWire ∈ nset ∨
              ∃ r ∈ rset, ∃ n ∈ nset, HReach e n r) := by
            rintro (h1 | h2 | ⟨r, hr, n, hn, hrch⟩)
            · exact htc (Or.inl h1)
            · exact htc (Or.inr h2)
            · exact hall r (mem_wlist.mpr hr) ⟨n, hn, hrch⟩
          constructor
          · rw [hchk]
            exact ⟨fun h => Except.noConfusion h, fun h => absurd h hB⟩
          · rw [hchk]
            exact ⟨fun _ => hB, fun _ => rfl⟩
        · have hchk : errorIfNotWellConnectedE e toWire fromWire pick innerFuel
              outerFuel = .error (.pyrtlError (connErrMsg e toWire fromWire)) := by
            rw [hcheck]
            exact hfold
          have hB : toWire ∈ rset ∨ fromWire ∈ nset ∨
              ∃ r ∈ rset, ∃ n ∈ nset, HReach e n r :=
            Or.inr (Or.inr ⟨r, mem_wlist.mp hrm, hc⟩)
          constructor
          · rw [hchk]
            exact ⟨fun _ => hB, fun _ => rfl⟩
          · rw [hchk]
            exact ⟨fun h => Except.noConfusion h, fun h => absurd hB h⟩
        · exfalso
          refine hterm ?_
          rw [hcheck]
          exact hfold

/-- The `annotate_module` view of module `M`'s boundary dictionaries. -/
def miM : ModInst := ⟨0, [("a", 1)], [("b", 3)]⟩

/-- Module `M` with a *bare-class* ascription `sort=Free` on input `a`
(which mismatches the computed `Needed({b})`). -/
def envAscCls : Env :=
  { envM with ascOf := fun w => if w = 1 then some (.cls .free) else none }

/-- Module `M` with an *instance* ascription `sort=Needed({'c'})` on input
`a` (which mismatches the computed `Needed({b})`). -/
def envAscInst : Env :=
  { envM with ascOf := fun w => if w = 1 then some (.inst .needed {"c"}) else none }

/-- A circuit in which wire 2 is (per the modelled netlist data) driven by
a memory-write net `('@', args=(9,), dests=(2,))`, and module input 1 is
driven from wire 2. -/
def envC4 : Env where
  nets := [⟨'w', [2], [1], false⟩, ⟨'@', [9], [2], false⟩]
  kindOf := fun w => if w = 1 then .modInput else .regular
  moduleOf := fun _ => 0
  sortOf := fun _ => none
  originalName := fun _ => "w"
  ascOf := fun _ => none
  strictOf := fun _ => false
  widthOf := fun _ => 4
  inDefinition := fun _ => false

/-- A circuit in which the module input 1 and the module output 3 are both
already driven (each is the destination of a net), input 1's module (id 0)
is not in definition, and output 3's module (id 1) is in definition. -/
def envW : Env where
  nets := [wNet 2 1, wNet 2 3]
  kindOf := fun w => if w = 1 then .modInput else if w = 3 then .modOutput else .regular
  moduleOf := fun w => if w = 3 then 1 else 0
  sortOf := fun _ => none
  originalName := fun _ => "x"
  ascOf := fun _ => none
  strictOf := fun _ => false
  widthOf := fun _ => 4
  inDefinition := fun m => m == 1

/-!
## Claims
-/

/-- **C3.**  During every reachability traversal, a `Register` wire and a
non-asynchronous memory read absorb the traversal: popping such a wire
contributes no successors, in the intramodular loop (parts 1 and 3) and in
the intermodular loop (parts 2 and 4); consequently, in the registered
module `N` of Scenario 2 (`r.next <<= a + 1; b <<= r * 4`), the input's
computed sort is `Free` and the output's computed sort is `Giving`
(part 5). -/
theorem claim3_absorbing :
    (∀ (e : Env) (m : Nat) (a : WireId),
      e.kindOf a = .register → intraExpand e m a = .ok []) ∧
    (∀ (e : Env) (a : WireId),
      e.kindOf a = .register → interExpand e a = .ok []) ∧
    (∀ (e : Env) (m : Nat) (a : WireId) (net : Net),
      e.kindOf a ≠ .register → e.moduleOf a = m → e.srcMap a = some net →
      net.dests.head? = some a → net.op = 'm' → net.asyncMem = false →
      intraExpand e m a = .ok []) ∧
    (∀ (e : Env) (a : WireId) (net : Net),
      e.kindOf a ≠ .modOutput → e.kindOf a ≠ .register → e.srcMap a = some net →
      net.dests.head? = some a → net.op = 'm' → net.asyncMem = false →
      interExpand e a = .ok []) ∧
    (makeWireSortE envN mpN pickLast 20 1 = .ok (some .free) ∧
      makeWireSortE envN mpN pickLast 20 6 = .ok (some .giving)) := by
  refine ⟨?_, ?_, ?_, ?_, by decide, by decide⟩
  · intro e m a h
    simp [intraExpand, h]
  · intro e a h
    have h' : e.kindOf a ≠ .modOutput := by rw [h]; decide
    simp [interExpand, h, h']
  · intro e m a net hreg hmod hsrc hdest hop hasync
    rw [intraExpand, if_neg hreg, if_neg (by simp [hmod]), hsrc]
    simp [hdest, hop, hasync]
  · intro e a net hout hreg hsrc hdest hop hasync
    rw [interExpand, if_neg hout, if_neg hreg, hsrc]
    simp [hdest, hop, hasync]

/-- Witness for C3: each absorption part applied at a concrete wire of
`envN` (wire 3 is the register, wire 7 the synchronous memory read). -/
theorem claim3_witness :
    intraExpand envN 0 3 = .ok [] ∧ interExpand envN 3 = .ok [] ∧
    intraExpand envN 0 7 = .ok [] ∧ interExpand envN 7 = .ok [] := by
  refine ⟨?_, ?_, ?_, ?_⟩
  · exact claim3_absorbing.1 envN 0 3 (by decide)
  · exact claim3_absorbing.2.1 envN 3 (by decide)
  · exact claim3_absorbing.2.2.1 envN 0 7 ⟨'m', [8], [7], false⟩
      (by decide) (by decide) (by decide) (by decide) (by decide) (by decide)
  · exact claim3_absorbing.2.2.2.1 envN 7 ⟨'m', [8], [7], false⟩
      (by decide) (by decide) (by decide) (by decide) (by decide) (by decide)

/-- **C4, counterexample.**  The claim asserts that *both* traversals
raise an internal-consistency failure on reaching a wire driven by a
memory-write net.  In `envC4`, wire 2 is driven by the `'@'` net, yet the
*intermodular* traversal started at input 1 reaches wire 2 and completes
without any error, returning its seen set — `_build_intermodular_
reachability_maps` executes `continue` on a `'@'` driver instead of
raising. -/
theorem claim4_counterexample :
    envC4.srcMap 2 = some ⟨'@', [9], [2], false⟩ ∧
    interExpand envC4 2 = .ok [] ∧
    interSeen envC4 pickLast 10 1 = .ok {1, 2} := by
  refine ⟨by decide, by decide, ?_⟩
  rw [show interSeen envC4 pickLast 10 1 = .ok {2, 1} from rfl]
  decide

/-- **C4, amended.**  On reaching a wire driven by a memory-write net, the
*intramodular* backward traversal raises an error — but a user-facing
`PyrtlError` (`"memwrites should not have a destination wire"`), not a
`PyrtlInternalError` — while the *intermodular* backward traversal raises
nothing at all: it silently skips the wire and continues. -/
theorem claim4_amended :
    (∀ (e : Env) (m : Nat) (a : WireId) (net : Net),
      e.kindOf a ≠ .register → e.moduleOf a = m → e.srcMap a = some net →
      net.dests.head? = some a → net.op = '@' →
      intraExpand e m a =
        .error (.pyrtlError "memwrites should not have a destination wire")) ∧
    (∀ (e : Env) (a : WireId) (net : Net),
      e.kindOf a ≠ .modOutput → e.kindOf a ≠ .register → e.srcMap a = some net →
      net.dests.head? = some a → net.op = '@' →
      interExpand e a = .ok []) := by
  constructor
  · intro e m a net hreg hmod hsrc hdest hop
    rw [intraExpand, if_neg hreg, if_neg (by simp [hmod]), hsrc]
    simp [hdest, hop]
  · intro e a net hout hreg hsrc hdest hop
    rw [interExpand, if_neg hout, if_neg hreg, hsrc]
    simp [hdest, hop]

/-- Witness for the amended C4, at wire 2 of `envC4`. -/
theorem claim4_amended_witness :
    intraExpand envC4 0 2 =
      .error (.pyrtlError "memwrites should not have a destination wire") ∧
    interExpand envC4 2 = .ok [] := by
  constructor
  · exact claim4_amended.1 envC4 0 2 ⟨'@', [9], [2], false⟩
      (by decide) (by decide) (by decide) (by decide) (by decide)
  · exact claim4_amended.2 envC4 2 ⟨'@', [9], [2], false⟩
      (by decide) (by decide) (by decide) (by decide) (by decide)

/-- **C7.**  Whenever `_ModInput.__ilshift__` raises — in particular
whenever the proposed boundary connection is rejected with a connection
error by `error_if_not_well_connected` — the raise happens before
`super().__ilshift__` builds the physical net, so the block is returned
exactly as it was; when no error is raised, exactly the new connection
net is appended. -/
theorem claim7_check_before_install (e : Env) (i other : WireId)
    (pick : List WireId → Nat) (innerFuel outerFuel : Nat) :
    (∀ err : Err, (modInputILshift e i other pick innerFuel outerFuel).1 = some err →
      (modInputILshift e i other pick innerFuel outerFuel).2 = e) ∧
    ((modInputILshift e i other pick innerFuel outerFuel).1 = none →
      (modInputILshift e i other pick innerFuel outerFuel).2.nets =
        e.nets ++ [wNet other i]) := by
  unfold modInputILshift
  split
  · exact ⟨fun _ _ => rfl, by simp⟩
  · split
    · exact ⟨fun _ _ => rfl, by simp⟩
    · split
      · exact ⟨fun _ _ => rfl, by simp⟩
      · split
        · exact ⟨fun _ _ => rfl, by simp⟩
        · exact ⟨by simp, fun _ => rfl⟩

/-- Witness for C7: in `envW`, input 1 is already driven, so the
assignment errors and the block is unchanged. -/
theorem claim7_witness :
    (modInputILshift envW 1 2 pickLast 5 5).2 = envW :=
  (claim7_check_before_install envW 1 2 pickLast 5 5).1
    (.pyrtlError ("Attempted to connect to already-connected module input " ++
      wireStr envW 1 ++ ")"))
    (by decide)

/-- **C10.**  A module boundary wire that is already driven (already the
destination of some net) rejects a second `<<=`: the input operator (once
past its in-definition and strict-width guards) and the output operator
(within its module's definition) both raise the "already-connected"
`PyrtlError` and leave the block unmodified, so a boundary wire acquires
at most one driver through the public assignment interface. -/
theorem claim10_single_driver (e : Env) (i o other other' : WireId)
    (pick : List WireId → Nat) (innerFuel outerFuel : Nat)
    (hdefi : e.inDefinition (e.moduleOf i) = false)
    (hwidth : ¬(e.widthOf i ≠ e.widthOf other ∧ e.strictOf i))
    (hdrvi : e.isDriven i = true)
    (hdefo : e.inDefinition (e.moduleOf o) = true)
    (hdrvo : e.isDriven o = true) :
    modInputILshift e i other pick innerFuel outerFuel =
      (some (.pyrtlError ("Attempted to connect to already-connected module input " ++
        wireStr e i ++ ")")), e) ∧
    modOutputILshift e o other' =
      (some (.pyrtlError ("Attempted to connect to already-connected module output " ++
        wireStr e o ++ ")")), e) := by
  constructor
  · rw [modInputILshift, if_neg (by simp [hdefi]), if_neg hwidth, if_pos hdrvi]
  · rw [modOutputILshift, if_neg (by simp [hdefo]), if_pos hdrvo]

/-- Witness for C10 in `envW` (input 1 and output 3 are both driven). -/
theorem claim10_witness :
    modInputILshift envW 1 2 pickLast 5 5 =
      (some (.pyrtlError ("Attempted to connect to already-connected module input " ++
        wireStr envW 1 ++ ")")), envW) ∧
    modOutputILshift envW 3 2 =
      (some (.pyrtlError ("Attempted to connect to already-connected module output " ++
        wireStr envW 3 ++ ")")), envW) :=
  claim10_single_driver envW 1 3 2 2 pickLast 5 5
    (by decide) (by decide) (by decide) (by decide) (by decide)

/-- Witness for C2: in Scenario-1 module `M`, input `a` (wire 1) computes
`Needed({b})` and the member set is exactly the declaratively reachable
output set. -/
theorem claim2_witness :
    makeWireSortE envM mpM pickLast 20 1 = .ok (some (.needed {3})) ∧
    (∀ o, o ∈ ({3} : Finset WireId) ↔
      o ∈ mpM.outputs ∧ IntraReaches envM mpM.id o 1) := by
  have hmk : makeWireSortE envM mpM pickLast 20 1 = .ok (some (.needed {3})) := by
    decide
  exact ⟨hmk,
    (claim2_exact_reachability envM mpM UM pickLast 20 (by decide) (by decide)
      (by decide) (by decide) (by decide) (by decide)).1 1 (by decide) {3} hmk⟩

/-- Witness for C9, at the input and output of Scenario-1 module `M`. -/
theorem claim9_witness :
    (∃ srt, makeWireSortE envM mpM pickLast 20 1 = .ok (some srt) ∧
      ((srt = .free ∧ srt.memberSet = ∅) ∨
        ∃ S, srt = .needed S ∧ S ≠ ∅ ∧ srt.memberSet = S)) ∧
    (∃ srt, makeWireSortE envM mpM pickLast 20 3 = .ok (some srt) ∧
      ((srt = .giving ∧ srt.memberSet = ∅) ∨
        ∃ D, srt = .dependent D ∧ D ≠ ∅ ∧ srt.memberSet = D)) := by
  have h := claim9_sort_totality envM mpM UM pickLast 20 (by decide) (by decide)
    (by decide) (by decide) (by decide)
  exact ⟨h.1 1 (by decide), h.2 3 (by decide)⟩

/-- The opposite pop order: always pop the first element. -/
def pickFirst : List WireId → Nat :=
  fun _ => 0

/-- Two annotated single-wire modules `m1` (input 1, output 2) and `m2`
(input 3, output 4), each with `Needed`/`Dependent` sorts, with the
connection `m2.a <<= m1.b` (net from wire 2 to wire 3) already present.
Connecting `m1.a <<= m2.b` (to wire 1 from wire 4) would close a
combinational ring. -/
def envC1 : Env where
  nets := [wNet 2 3]
  kindOf := fun w =>
    if w = 1 ∨ w = 3 then .modInput
    else if w = 2 ∨ w = 4 then .modOutput
    else .regular
  moduleOf := fun w => if w ≤ 2 then 1 else 2
  sortOf := fun w =>
    if w = 1 then some (.needed {2})
    else if w = 2 then some (.dependent {1})
    else if w = 3 then some (.needed {4})
    else if w = 4 then some (.dependent {3})
    else none
  originalName := fun w => if w = 1 ∨ w = 3 then "a" else "b"
  ascOf := fun _ => none
  strictOf := fun _ => false
  widthOf := fun _ => 4
  inDefinition := fun _ => false

/-- Witness for the amended C1: the proposed ring-closing connection
`m1.a <<= m2.b` in `envC1` is rejected with the connection error, via the
transitive case (`3 ∈ R` is reachable from `2 ∈ N` through the existing
connection). -/
theorem claim1_amended_witness :
    errorIfNotWellConnectedE envC1 1 4 pickLast 10 10 =
      .error (.pyrtlError (connErrMsg envC1 1 4)) := by
  have hsorts : ∀ w, envC1.kindOf w = .modInput →
      isInputSort (envC1.sortOf w) = true := by
    intro w hw
    by_cases h1 : w = 1
    · subst h1; decide
    · by_cases h3 : w = 3
      · subst h3; decide
      · exfalso
        simp only [envC1, h1, h3, or_self, if_false] at hw
        split at hw
        · exact WKind.noConfusion hw
        · exact WKind.noConfusion hw
  have hr23 : HReach envC1 2 3 :=
    Relation.ReflTransGen.single
      (Or.inl ⟨by decide, ⟨'w', [2], [3], false⟩, by decide, by decide⟩)
  exact (claim1_amended envC1 1 4 pickLast 10 10 (by decide) (by decide)
      (by decide) (by decide) hsorts (by decide) (by decide) (by decide)
      (by decide) (by decide)).1.mpr
    (Or.inr (Or.inr ⟨3, by decide, 2, by decide, hr23⟩))

/-- Modelled from the spec: one *combinational* forward wiring step
(glossary: "through zero clocked elements"; section 4.3: "Registers and
non-asynchronous memory reads still absorb traversal").  It is `hStep`
with the ordinary wiring step additionally forbidden from crossing a
non-asynchronous memory-read net: wires of the stop classes do not
expand, any other wire steps to the first destination of a consuming net
that is not a synchronous read, and a module input jumps the interior to
the outputs awaiting it. -/
def combStepH (e : Env) (a b : WireId) : Prop :=
  (stopKindH e a = false ∧ ∃ net ∈ e.dstMap a,
    ¬ (net.op = 'm' ∧ net.asyncMem = false) ∧ net.dests.head? = some b) ∨
  (e.kindOf a = .modInput ∧ b ∈ awaitedSet e a)

/-- Modelled from the spec: combinational forward reachability through
wiring outside any module's interior — the reflexive-transitive closure
of the combinational step. -/
def CombReach (e : Env) : WireId → WireId → Prop :=
  Relation.ReflTransGen (combStepH e)

/-- The two annotated single-wire modules of `envC1`, but with the
existing path from `m1.b` (wire 2) to `m2.a` (wire 3) routed through a
*non-asynchronous memory read* in the enclosing scope: wire 2 addresses a
synchronous `'m'` net whose read-data wire 5 drives wire 3.  There is no
combinational path from 2 to 3 (the synchronous read is a clocked
element), yet the checker's forward traversal crosses the `'m'` net
because its stopping test looks only at wire classes. -/
def envC1m : Env where
  nets := [⟨'m', [2], [5], false⟩, wNet 5 3]
  kindOf := fun w =>
    if w = 1 ∨ w = 3 then .modInput
    else if w = 2 ∨ w = 4 then .modOutput
    else .regular
  moduleOf := fun w => if w ≤ 2 then 1 else if w ≤ 4 then 2 else 0
  sortOf := fun w =>
    if w = 1 then some (.needed {2})
    else if w = 2 then some (.dependent {1})
    else if w = 3 then some (.needed {4})
    else if w = 4 then some (.dependent {3})
    else none
  originalName := fun w => if w = 1 ∨ w = 3 then "a" else "b"
  ascOf := fun _ => none
  strictOf := fun _ => false
  widthOf := fun _ => 4
  inDefinition := fun _ => false

/-- **C1, counterexample.**  The original claim — rejection *iff* the
1-hop cases or some `r ∈ R` *combinationally* reachable from some
`n ∈ N`, accepted in every other case — is false of
`error_if_not_well_connected`: in `envC1m` the proposed connection
`m1.a <<= m2.b` (to wire 1 from wire 4, `R = {3}`, `N = {2}`) is rejected
with the connection error (part 1) although neither 1-hop case holds
(part 2) and *no* member of `R` is combinationally reachable from any
member of `N` — the only path from 2 to 3 crosses a synchronous memory
read, which absorbs combinational traversal (part 3), so the claim
mandates acceptance.  The code rejects because its class-based forward
traversal does cross the synchronous read: `HReach envC1m 2 3` holds
(part 4). -/
theorem claim1_counterexample :
    errorIfNotWellConnectedE envC1m 1 4 pickLast 12 12 =
      .error (.pyrtlError (connErrMsg envC1m 1 4)) ∧
    (1 ∉ requiresSet envC1m 4 ∧ 4 ∉ awaitedSet envC1m 1) ∧
    ¬ (∃ r ∈ requiresSet envC1m 4, ∃ n ∈ awaitedSet envC1m 1,
      CombReach envC1m n r) ∧
    HReach envC1m 2 3 := by
  refine ⟨by decide, by decide, ?_, ?_⟩
  · rintro ⟨r, hr, n, hn, hreach⟩
    have hr3 : r = 3 := by
      have hmem : r ∈ ({3} : Finset WireId) := by
        have hrs : requiresSet envC1m 4 = {3} := by decide
        rw [← hrs]
        exact hr
      simpa using hmem
    have hn2 : n = 2 := by
      have hmem : n ∈ ({2} : Finset WireId) := by
        have hns : awaitedSet envC1m 1 = {2} := by decide
        rw [← hns]
        exact hn
      simpa using hmem
    subst hr3
    subst hn2
    have hstop : ∀ b, ¬ combStepH envC1m 2 b := by
      intro b hb
      rcases hb with ⟨hstopk, net, hnet, hnotm, hd⟩ | ⟨hk, hmem⟩
      · have hdst : envC1m.dstMap 2 = [⟨'m', [2], [5], false⟩] := by decide
        rw [hdst] at hnet
        have hne : net = ⟨'m', [2], [5], false⟩ := List.mem_singleton.mp hnet
        subst hne
        exact hnotm ⟨rfl, rfl⟩
      · exact absurd hk (by decide)
    have h2 : ∀ x, CombReach envC1m 2 x → x = 2 := by
      intro x hx
      induction hx with
      | refl => rfl
      | tail hab hbc ih =>
        rw [ih] at hbc
        exact absurd hbc (hstop _)
    exact absurd (h2 3 hreach) (by decide)
  · have h25 : hStep envC1m 2 5 :=
      Or.inl ⟨by decide, ⟨'m', [2], [5], false⟩, by decide, by decide⟩
    have h53 : hStep envC1m 5 3 :=
      Or.inl ⟨by decide, wNet 5 3, by decide, by decide⟩
    exact Relation.ReflTransGen.head h25 (Relation.ReflTransGen.single h53)

/-- Witness for C8: on Scenario-1 module `M`, a LIFO run and a FIFO run
with different fuels produce equal `needed_by`, `depends_on` and
`wires_to_inputs` entries, all defined. -/
theorem claim8_witness :
    (isOkE (neededByE envM mpM pickLast 20 1) = true ∧
      neededByE envM mpM pickLast 20 1 = neededByE envM mpM pickFirst 25 1) ∧
    (isOkE (dependsOnE envM mpM pickLast 20 3) = true ∧
      dependsOnE envM mpM pickLast 20 3 = dependsOnE envM mpM pickFirst 25 3) ∧
    (isOkE (wiresToInputsE envM [mpM] pickLast 20 3) = true ∧
      wiresToInputsE envM [mpM] pickLast 20 3 =
        wiresToInputsE envM [mpM] pickFirst 25 3) := by
  have h := claim8_order_independent envM mpM [mpM] UM {1} pickLast pickFirst 20 25
    (by decide) (by decide) (by decide) (by decide)
    (by decide) (by decide) (by decide) (by decide)
  exact ⟨h.1 1, h.2.1 3, h.2.2 3⟩

/-- **C6.**  `sort_matches` behaves as claimed: a bare class tag matches
exactly the computed sorts of its variant, and a full instance matches
exactly when its ascribed name set equals the computed member set mapped
through `_original_name` (parts 1–3).  On a mismatch with a *bare-class*
ascription, annotation fails with the descriptive `PyrtlError` naming the
wire, the declared sort and the computed sort (part 4).  But on a
mismatch with an *instance* ascription, evaluating `io.sort.__name__`
while formatting that message raises `AttributeError` — sort instances
have no `__name__` — so the descriptive error claimed (and intended by
the code, whose comment says instances are supported) is never produced
(part 5): the code has a defect on this path. -/
theorem claim6_mismatch_bug :
    (∀ (e : Env) (v : SortVariant) (s : WireSort),
      sortMatches e (.cls v) s = true ↔ s.variant = v) ∧
    (∀ (e : Env) (names : Finset String) (S : Finset WireId),
      sortMatches e (.inst .needed names) (.needed S) = true ↔
        names = S.image e.originalName) ∧
    (∀ (e : Env) (names : Finset String) (S : Finset WireId),
      sortMatches e (.inst .dependent names) (.dependent S) = true ↔
        names = S.image e.originalName) ∧
    annotateModule envAscCls miM "M" [] pickLast 20 =
      .error (.pyrtlError ("Unmatched sort ascription on wire a/4W. " ++
        "User provided Free. But we computed Needed (needed by: b).")) ∧
    annotateModule envAscInst miM "M" [] pickLast 20 =
      .error (.attributeError "object has no attribute __name__") := by
  refine ⟨?_, ?_, ?_, by decide, by decide⟩
  · intro e v s
    simp [sortMatches]
  · intro e names S
    simp [sortMatches]
  · intro e names S
    simp [sortMatches]

/-!
## C5: cache reuse and isomorphism of the cloned sorts
-/

/-- The image of a sort under a wire renaming `σ` (the mathematical
counterpart of cloning with substituted wire identities). -/
def mapSort (σ : WireId → WireId) : WireSort → WireSort
  | .free => .free
  | .giving => .giving
  | .needed s => .needed (s.image σ)
  | .dependent s => .dependent (s.image σ)

/-- The sort payload of a successful `_make_wire_sort` result (junk
otherwise). -/
def okSortW (x : Except Err (Option WireSort)) : WireSort :=
  match x with
  | .ok (some s) => s
  | _ => .free

/-- Appending a fresh cache entry makes it visible to lookup. -/
theorem lookup_append_single {c : Cache} {k : String} (S : SortMap)
    (h : c.lookup k = none) : (c ++ [(k, S)]).lookup k = some S := by
  induction c with
  | nil => simp [List.lookup]
  | cons p t ih =>
    obtain ⟨k1, v1⟩ := p
    rw [List.cons_append]
    rw [List.lookup] at h ⊢
    cases hbe : (k == k1) with
    | true =>
      rw [hbe] at h
      dsimp only at h
      exact absurd h (by simp)
    | false =>
      rw [hbe] at h
      dsimp only at h ⊢
      exact ih h

/-- Looking a key function's value up in an association list built by
mapping over a key-distinct list finds the entry of the originating
element. -/
theorem lookup_map_key {β γ : Type} (k : β → String)
    (f : β → γ) :
    ∀ (l : List β), (l.map k).Nodup →
    ∀ p ∈ l, (l.map (fun q => (k q, f q))).lookup (k p) = some (f p) := by
  intro l
  induction l with
  | nil => intro _ p hp; exact absurd hp (List.not_mem_nil _)
  | cons q t ih =>
    intro hnd p hp
    rw [List.map_cons] at hnd
    have hnd1 := List.nodup_cons.mp hnd
    rcases List.mem_cons.mp hp with rfl | hpt
    · rw [List.map_cons, List.lookup, beq_self_eq_true]
    · have hne : (k p == k q) = false := by
        rw [beq_eq_false_iff_ne]
        intro hkk
        exact hnd1.1 (hkk ▸ List.mem_map_of_mem k hpt)
      rw [List.map_cons, List.lookup, hne]
      exact ih hnd1.2 p hpt

/-- The compute branch's fold, characterized: with no ascriptions and
every `_make_wire_sort` call succeeding, it appends exactly the computed
sorts, keyed by wire in the assignment and by original name in the
memoized map. -/
theorem computeStep_fold (e : Env) (mi : ModInst) (pick : List WireId → Nat)
    (fuel : Nat) :
    ∀ (l : List (String × WireId)) (acc : List (WireId × WireSort) × SortMap),
    (∀ p ∈ l, e.ascOf p.2 = none) →
    (∀ p ∈ l, ∃ srt, makeWireSortE e mi.toMod pick fuel p.2 = .ok (some srt)) →
    l.foldlM (computeStep e mi pick fuel) acc = .ok
      (acc.1 ++ l.map (fun p =>
        (p.2, okSortW (makeWireSortE e mi.toMod pick fuel p.2))),
       acc.2 ++ l.map (fun p =>
        (e.originalName p.2, okSortW (makeWireSortE e mi.toMod pick fuel p.2)))) := by
  intro l
  induction l with
  | nil =>
    intro acc _ _
    simp only [List.foldlM_nil, List.map_nil, List.append_nil]
    rfl
  | cons p t ih =>
    intro acc hasc hok
    obtain ⟨srt, hsrt⟩ := hok p (List.mem_cons_self _ _)
    have hstep : computeStep e mi pick fuel acc p =
        .ok (acc.1 ++ [(p.2, srt)], acc.2 ++ [(e.originalName p.2, srt)]) := by
      unfold computeStep
      rw [hsrt, hasc p (List.mem_cons_self _ _)]
    have hval : okSortW (makeWireSortE e mi.toMod pick fuel p.2) = srt := by
      rw [hsrt]
      rfl
    rw [List.foldlM_cons, hstep, bind_ok,
      ih _ (fun q hq => hasc q (List.mem_cons_of_mem _ hq))
        (fun q hq => hok q (List.mem_cons_of_mem _ hq))]
    simp [hval]

/-- The cache branch's fold, characterized: when every boundary wire's
original name is cached and its sort clones successfully, the fold appends
exactly the clones. -/
theorem cloneStep_fold (e : Env) (mi : ModInst) (sorts : SortMap)
    (clone : (String × WireId) → WireSort) :
    ∀ (l : List (String × WireId)) (acc : List (WireId × WireSort)),
    (∀ p ∈ l, ∃ s, sorts.lookup (e.originalName p.2) = some s ∧
      cloneSort e mi s = .ok (clone p)) →
    l.foldlM (cloneStep e mi sorts) acc =
      .ok (acc ++ l.map (fun p => (p.2, clone p))) := by
  intro l
  induction l with
  | nil =>
    intro acc _
    simp only [List.foldlM_nil, List.map_nil, List.append_nil]
    rfl
  | cons p t ih =>
    intro acc h
    obtain ⟨s, hs, hc⟩ := h p (List.mem_cons_self _ _)
    have hstep : cloneStep e mi sorts acc p = .ok (acc ++ [(p.2, clone p)]) := by
      unfold cloneStep
      rw [hs]
      dsimp only
      rw [hc]
      rfl
    rw [List.foldlM_cons, hstep, bind_ok,
      ih _ (fun q hq => h q (List.mem_cons_of_mem _ hq))]
    simp

/-- `annotate_module` on a cache miss: it computes every boundary sort,
memoizes them under the class name, and returns the per-wire assignments. -/
theorem annotateModule_compute (e : Env) (mi : ModInst) (className : String)
    (cache : Cache) (pick : List WireId → Nat) (fuel : Nat)
    (hlook : cache.lookup className = none)
    (hasc : ∀ p ∈ mi.pairs, e.ascOf p.2 = none)
    (hok : ∀ p ∈ mi.pairs, ∃ srt,
      makeWireSortE e mi.toMod pick fuel p.2 = .ok (some srt)) :
    annotateModule e mi className cache pick fuel = .ok
      (mi.pairs.map (fun p =>
        (p.2, okSortW (makeWireSortE e mi.toMod pick fuel p.2))),
       cache ++ [(className, mi.pairs.map (fun p =>
        (e.originalName p.2, okSortW (makeWireSortE e mi.toMod pick fuel p.2))))]) := by
  unfold annotateModule
  rw [hlook]
  dsimp only
  rw [computeStep_fold e mi pick fuel mi.pairs ([], []) hasc hok]
  rfl

/-- `annotate_module` on a cache hit: it returns the clones of the cached
sorts, looked up by original name, and leaves the cache unchanged; the
reachability maps are never recomputed (the cache branch does not even
mention `pick` or `fuel`). -/
theorem annotateModule_cached (e : Env) (mi : ModInst) (className : String)
    (cache : Cache) (pick : List WireId → Nat) (fuel : Nat) (sorts : SortMap)
    (clone : (String × WireId) → WireSort)
    (hlook : cache.lookup className = some sorts)
    (h : ∀ p ∈ mi.pairs, ∃ s, sorts.lookup (e.originalName p.2) = some s ∧
      cloneSort e mi s = .ok (clone p)) :
    annotateModule e mi className cache pick fuel =
      .ok (mi.pairs.map (fun p => (p.2, clone p)), cache) := by
  unfold annotateModule
  rw [hlook]
  dsimp only
  rw [cloneStep_fold e mi sorts clone mi.pairs [] h]
  rfl

/-- When a renaming `σ` commutes with the expansion step on `U`, the pure
successor lists transfer: expanding `σ a` yields the `σ`-image of
expanding `a`. -/
theorem pexp_map {f1 f2 : WireId → Except Err (List WireId)}
    {σ : WireId → WireId} {U : Finset WireId}
    (hexp : ∀ a ∈ U, f2 (σ a) = Except.map (List.map σ) (f1 a))
    {a : WireId} (ha : a ∈ U) : pexp f2 (σ a) = (pexp f1 a).map σ := by
  unfold pexp
  rw [hexp a ha]
  cases hfa : f1 a <;> rfl

/-- A traversal universe transfers along a commuting renaming. -/
theorem travUniv_map {f1 f2 : WireId → Except Err (List WireId)}
    {σ : WireId → WireId} {U : Finset WireId}
    (hexp : ∀ a ∈ U, f2 (σ a) = Except.map (List.map σ) (f1 a))
    (hU : TravUniv f1 U) : TravUniv f2 (U.image σ) := by
  constructor
  · intro y hy b hb
    obtain ⟨a, haU, rfl⟩ := Finset.mem_image.mp hy
    rw [pexp_map hexp haU] at hb
    obtain ⟨c, hc, rfl⟩ := List.mem_map.mp hb
    exact Finset.mem_image_of_mem σ (hU.closed a haU c hc)
  · intro y hy
    obtain ⟨a, haU, rfl⟩ := Finset.mem_image.mp hy
    rw [hexp a haU]
    have hok := hU.okOn a haU
    cases hfa : f1 a with
    | error err => rw [hfa] at hok; exact absurd hok (by simp [isOkE])
    | ok l => rfl

/-- Declarative reachability transfers forward along a commuting
renaming (and stays inside the universe). -/
theorem rtc_map_forward {f1 f2 : WireId → Except Err (List WireId)}
    {σ : WireId → WireId} {U : Finset WireId}
    (hexp : ∀ a ∈ U, f2 (σ a) = Except.map (List.map σ) (f1 a))
    (hcl : ∀ a ∈ U, ∀ b ∈ pexp f1 a, b ∈ U)
    {a b : WireId} (ha : a ∈ U)
    (h : Relation.ReflTransGen (stepRel f1) a b) :
    b ∈ U ∧ Relation.ReflTransGen (stepRel f2) (σ a) (σ b) := by
  induction h with
  | refl => exact ⟨ha, Relation.ReflTransGen.refl⟩
  | tail hab hbc ih =>
    obtain ⟨hbU, hrtc⟩ := ih
    refine ⟨hcl _ hbU _ hbc, hrtc.tail ?_⟩
    show _ ∈ pexp f2 _
    rw [pexp_map hexp hbU]
    exact List.mem_map_of_mem σ hbc

/-- Declarative reachability transfers backward along a commuting
renaming: everything reachable from `σ a` is the image of something
reachable from `a`. -/
theorem rtc_map_backward {f1 f2 : WireId → Except Err (List WireId)}
    {σ : WireId → WireId} {U : Finset WireId}
    (hexp : ∀ a ∈ U, f2 (σ a) = Except.map (List.map σ) (f1 a))
    (hcl : ∀ a ∈ U, ∀ b ∈ pexp f1 a, b ∈ U)
    {a : WireId} (ha : a ∈ U) {y : WireId}
    (h : Relation.ReflTransGen (stepRel f2) (σ a) y) :
    ∃ b, b ∈ U ∧ y = σ b ∧ Relation.ReflTransGen (stepRel f1) a b := by
  induction h with
  | refl => exact ⟨a, ha, rfl, Relation.ReflTransGen.refl⟩
  | tail hxy hyz ih =>
    obtain ⟨b, hbU, rfl, hrtc⟩ := ih
    rw [stepRel, pexp_map hexp hbU] at hyz
    obtain ⟨c, hc, rfl⟩ := List.mem_map.mp hyz
    exact ⟨c, hcl b hbU c hc, rfl, hrtc.tail hc⟩

/-- Intramodular backward reachability transfers along a commuting
injective renaming. -/
theorem intraReaches_map_iff (e : Env) {m1 m2 : Nat} {σ : WireId → WireId}
    {U : Finset WireId}
    (hexp : ∀ a ∈ U, intraExpand e m2 (σ a) =
      Except.map (List.map σ) (intraExpand e m1 a))
    (hcl : ∀ a ∈ U, ∀ b ∈ pexp (intraExpand e m1) a, b ∈ U)
    (hinj : ∀ a ∈ U, ∀ b ∈ U, σ a = σ b → a = b)
    {o i : WireId} (ho : o ∈ U) (hi : i ∈ U) :
    IntraReaches e m2 (σ o) (σ i) ↔ IntraReaches e m1 o i := by
  constructor
  · intro h
    obtain ⟨b, hbU, hb, hrtc⟩ := rtc_map_backward hexp hcl ho h
    rw [IntraReaches, intraStep]
    rw [hinj i hi b hbU hb]
    exact hrtc
  · intro h
    exact (rtc_map_forward hexp hcl ho h).2

/-- The recording guard of the intramodular traversal transfers along a
commuting injective renaming. -/
theorem intraRecorded_map_iff (e : Env) {m1 m2 : Nat} {σ : WireId → WireId}
    {U : Finset WireId}
    (hinj : ∀ a ∈ U, ∀ b ∈ U, σ a = σ b → a = b)
    (hkind : ∀ a ∈ U, e.kindOf (σ a) = e.kindOf a)
    (hmod : ∀ a ∈ U, (e.moduleOf (σ a) = m2 ↔ e.moduleOf a = m1))
    {o i : WireId} (ho : o ∈ U) (hi : i ∈ U) :
    intraRecorded e m2 (σ o) (σ i) ↔ intraRecorded e m1 o i := by
  unfold intraRecorded
  rw [hkind i hi]
  constructor
  · rintro ⟨h1, h2, h3⟩
    exact ⟨fun hio => h1 (by rw [hio]), h2, (hmod i hi).mp h3⟩
  · rintro ⟨h1, h2, h3⟩
    exact ⟨fun hio => h1 (hinj i hi o ho hio), h2, (hmod i hi).mpr h3⟩

/-- `needed_by` transfers along a commuting injective renaming: the second
instance's entry at `σ i` is the `σ`-image of the first's entry at `i`
(and its members are outputs of the first instance). -/
theorem neededByE_map (e : Env) (mp1 mp2 : Mod) (σ : WireId → WireId)
    (U : Finset WireId) (pick1 pick2 : List WireId → Nat) (fuel1 fuel2 : Nat)
    (hexp : ∀ a ∈ U, intraExpand e mp2.id (σ a) =
      Except.map (List.map σ) (intraExpand e mp1.id a))
    (hU : TravUniv (intraExpand e mp1.id) U)
    (hinj : ∀ a ∈ U, ∀ b ∈ U, σ a = σ b → a = b)
    (hkind : ∀ a ∈ U, e.kindOf (σ a) = e.kindOf a)
    (hmod : ∀ a ∈ U, (e.moduleOf (σ a) = mp2.id ↔ e.moduleOf a = mp1.id))
    (houtU : ∀ o ∈ mp1.outputs, o ∈ U)
    (hout2 : mp2.outputs = mp1.outputs.image σ)
    (hfuel1 : (travBound (intraExpand e mp1.id) U + 1) * U.card + 2 ≤ fuel1)
    (hfuel2 : (travBound (intraExpand e mp2.id) (U.image σ) + 1) *
      (U.image σ).card + 2 ≤ fuel2)
    (i : WireId) (hiU : i ∈ U) :
    ∃ nb, neededByE e mp1 pick1 fuel1 i = .ok nb ∧
      neededByE e mp2 pick2 fuel2 (σ i) = .ok (nb.image σ) ∧
      ∀ o ∈ nb, o ∈ mp1.outputs := by
  have hok1 := @intraSeen_ok e mp1 pick1 fuel1 U hU houtU hfuel1
  have hU2 := travUniv_map hexp hU
  have houtU2 : ∀ o ∈ mp2.outputs, o ∈ U.image σ := by
    intro o hoo
    rw [hout2] at hoo
    obtain ⟨o1, ho1, rfl⟩ := Finset.mem_image.mp hoo
    exact Finset.mem_image_of_mem σ (houtU o1 ho1)
  have hok2 := @intraSeen_ok e mp2 pick2 fuel2 (U.image σ) hU2 houtU2 hfuel2
  obtain ⟨nb1, hnb1, hm1⟩ := neededByE_char i hok1
  obtain ⟨nb2, hnb2, hm2⟩ := neededByE_char (σ i) hok2
  refine ⟨nb1, hnb1, ?_, fun o hoo => ((hm1 o).mp hoo).1⟩
  rw [hnb2]
  congr 1
  ext o2
  rw [hm2 o2, Finset.mem_image]
  constructor
  · rintro ⟨ho2, hre, hrec⟩
    rw [hout2] at ho2
    obtain ⟨o1, ho1, rfl⟩ := Finset.mem_image.mp ho2
    have hoU := houtU o1 ho1
    refine ⟨o1, ?_, rfl⟩
    rw [hm1 o1]
    exact ⟨ho1,
      (intraReaches_map_iff e hexp hU.closed hinj hoU hiU).mp hre,
      (intraRecorded_map_iff e hinj hkind hmod hoU hiU).mp hrec⟩
  · rintro ⟨o1, ho1, rfl⟩
    rw [hm1 o1] at ho1
    obtain ⟨homem, hre, hrec⟩ := ho1
    have hoU := houtU o1 homem
    refine ⟨?_, ?_, ?_⟩
    · rw [hout2]
      exact Finset.mem_image_of_mem σ homem
    · exact (intraReaches_map_iff e hexp hU.closed hinj hoU hiU).mpr hre
    · exact (intraRecorded_map_iff e hinj hkind hmod hoU hiU).mpr hrec

/-- `depends_on` transfers along a commuting injective renaming: the
second instance's entry at `σ o` is the `σ`-image of the first's entry at
`o` (and its members are inputs of the first instance). -/
theorem dependsOnE_map (e : Env) (mp1 mp2 : Mod) (σ : WireId → WireId)
    (U : Finset WireId) (pick1 pick2 : List WireId → Nat) (fuel1 fuel2 : Nat)
    (hexp : ∀ a ∈ U, intraExpand e mp2.id (σ a) =
      Except.map (List.map σ) (intraExpand e mp1.id a))
    (hU : TravUniv (intraExpand e mp1.id) U)
    (hinj : ∀ a ∈ U, ∀ b ∈ U, σ a = σ b → a = b)
    (hkind : ∀ a ∈ U, e.kindOf (σ a) = e.kindOf a)
    (hmod : ∀ a ∈ U, (e.moduleOf (σ a) = mp2.id ↔ e.moduleOf a = mp1.id))
    (hinU : ∀ i ∈ mp1.inputs, i ∈ U)
    (houtU : ∀ o ∈ mp1.outputs, o ∈ U)
    (hin2 : mp2.inputs = mp1.inputs.image σ)
    (hout2 : mp2.outputs = mp1.outputs.image σ)
    (hfuel1 : (travBound (intraExpand e mp1.id) U + 1) * U.card + 2 ≤ fuel1)
    (hfuel2 : (travBound (intraExpand e mp2.id) (U.image σ) + 1) *
      (U.image σ).card + 2 ≤ fuel2)
    (o : WireId) (hoU : o ∈ U) :
    ∃ d, dependsOnE e mp1 pick1 fuel1 o = .ok d ∧
      dependsOnE e mp2 pick2 fuel2 (σ o) = .ok (d.image σ) ∧
      ∀ i ∈ d, i ∈ mp1.inputs := by
  have hok1 := @intraSeen_ok e mp1 pick1 fuel1 U hU houtU hfuel1
  have hU2 := travUniv_map hexp hU
  have houtU2 : ∀ o' ∈ mp2.outputs, o' ∈ U.image σ := by
    intro o' hoo
    rw [hout2] at hoo
    obtain ⟨o1, ho1, rfl⟩ := Finset.mem_image.mp hoo
    exact Finset.mem_image_of_mem σ (houtU o1 ho1)
  have hok2 := @intraSeen_ok e mp2 pick2 fuel2 (U.image σ) hU2 houtU2 hfuel2
  obtain ⟨d1, hd1, hm1⟩ := dependsOnE_char o hok1
  obtain ⟨d2, hd2, hm2⟩ := dependsOnE_char (σ o) hok2
  have houtiff : σ o ∈ mp2.outputs ↔ o ∈ mp1.outputs := by
    rw [hout2]
    constructor
    · intro h
      obtain ⟨o1, ho1, heq⟩ := Finset.mem_image.mp h
      rw [hinj o hoU o1 (houtU o1 ho1) heq.symm]
      exact ho1
    · exact Finset.mem_image_of_mem σ
  refine ⟨d1, hd1, ?_, fun i hii => ((hm1 i).mp hii).1⟩
  rw [hd2]
  congr 1
  ext i2
  rw [hm2 i2, Finset.mem_image]
  constructor
  · rintro ⟨hi2, ho2, hre, hrec⟩
    rw [hin2] at hi2
    obtain ⟨i1, hi1, rfl⟩ := Finset.mem_image.mp hi2
    have hiU := hinU i1 hi1
    refine ⟨i1, ?_, rfl⟩
    rw [hm1 i1]
    exact ⟨hi1, houtiff.mp ho2,
      (intraReaches_map_iff e hexp hU.closed hinj hoU hiU).mp hre,
      (intraRecorded_map_iff e hinj hkind hmod hoU hiU).mp hrec⟩
  · rintro ⟨i1, hi1, rfl⟩
    rw [hm1 i1] at hi1
    obtain ⟨himem, homem, hre, hrec⟩ := hi1
    have hiU := hinU i1 himem
    refine ⟨?_, houtiff.mpr homem, ?_, ?_⟩
    · rw [hin2]
      exact Finset.mem_image_of_mem σ himem
    · exact (intraReaches_map_iff e hexp hU.closed hinj hoU hiU).mpr hre
    · exact (intraRecorded_map_iff e hinj hkind hmod hoU hiU).mpr hrec

/-- When every member wire's original name resolves on the new instance to
its `σ`-image, `update_set` returns exactly the `σ`-image of the cached
member set. -/
theorem updateSet_image (e : Env) (mi2 : ModInst) (σ : WireId → WireId)
    (s : Finset WireId)
    (hget : ∀ w ∈ s, getattrW mi2 (e.originalName w) = some (σ w)) :
    updateSet e mi2 s = .ok (s.image σ) := by
  have hbody : ∀ w ∈ wlist s, ∀ acc : Finset WireId,
      (True ∧
        (match getattrW mi2 (e.originalName w) with
          | some w2 => Except.ok (insert w2 acc)
          | none => Except.error
              (Err.attributeError "Cannot get non-IO wirevector from module.")) =
          .ok (insert (σ w) acc)) ∨
      (¬ True ∧
        (match getattrW mi2 (e.originalName w) with
          | some w2 => Except.ok (insert w2 acc)
          | none => Except.error
              (Err.attributeError "Cannot get non-IO wirevector from module.")) =
          .ok acc) := by
    intro w hw acc
    refine Or.inl ⟨trivial, ?_⟩
    rw [hget w (mem_wlist.mp hw)]
  obtain ⟨res, hres, hmem⟩ :=
    foldlM_insert_ok (wlist s) (fun _ => True) σ
      (fun acc w =>
        match getattrW mi2 (e.originalName w) with
        | some w2 => .ok (insert w2 acc)
        | none => .error
            (.attributeError "Cannot get non-IO wirevector from module."))
      hbody ∅
  unfold updateSet
  rw [hres]
  congr 1
  ext y
  rw [hmem y, Finset.mem_image]
  constructor
  · rintro (hy | ⟨w, hw, _, rfl⟩)
    · exact absurd hy (Finset.not_mem_empty _)
    · exact ⟨w, mem_wlist.mp hw, rfl⟩
  · rintro ⟨w, hw, rfl⟩
    exact Or.inr ⟨w, mem_wlist.mpr hw, trivial, rfl⟩

/-- When every member wire's original name resolves on the new instance to
its `σ`-image, cloning a cached sort produces exactly its image under the
renaming. -/
theorem cloneSort_map (e : Env) (mi2 : ModInst) (σ : WireId → WireId)
    (srt : WireSort)
    (hget : ∀ w ∈ srt.memberSet, getattrW mi2 (e.originalName w) = some (σ w)) :
    cloneSort e mi2 srt = .ok (mapSort σ srt) := by
  cases srt with
  | free => rfl
  | giving => rfl
  | needed s =>
    show (updateSet e mi2 s).map WireSort.needed = _
    rw [updateSet_image e mi2 σ s hget]
    rfl
  | dependent s =>
    show (updateSet e mi2 s).map WireSort.dependent = _
    rw [updateSet_image e mi2 σ s hget]
    rfl

/-- `_make_wire_sort` transfers along a commuting injective renaming: the
sort computed directly for the renamed boundary wire of the second
instance is exactly the image under `σ` of the first instance's sort, and
the first sort's members are boundary wires of the first instance. -/
theorem makeWireSortE_map (e : Env) (mp1 mp2 : Mod) (σ : WireId → WireId)
    (U : Finset WireId) (pick1 pick2 : List WireId → Nat) (fuel1 fuel2 : Nat)
    (hexp : ∀ a ∈ U, intraExpand e mp2.id (σ a) =
      Except.map (List.map σ) (intraExpand e mp1.id a))
    (hU : TravUniv (intraExpand e mp1.id) U)
    (hinj : ∀ a ∈ U, ∀ b ∈ U, σ a = σ b → a = b)
    (hkind : ∀ a ∈ U, e.kindOf (σ a) = e.kindOf a)
    (hmod : ∀ a ∈ U, (e.moduleOf (σ a) = mp2.id ↔ e.moduleOf a = mp1.id))
    (hinU : ∀ i ∈ mp1.inputs, i ∈ U)
    (houtU : ∀ o ∈ mp1.outputs, o ∈ U)
    (hin2 : mp2.inputs = mp1.inputs.image σ)
    (hout2 : mp2.outputs = mp1.outputs.image σ)
    (hkin1 : ∀ i ∈ mp1.inputs, e.kindOf i = .modInput)
    (hkout1 : ∀ o ∈ mp1.outputs, e.kindOf o = .modOutput)
    (hfuel1 : (travBound (intraExpand e mp1.id) U + 1) * U.card + 2 ≤ fuel1)
    (hfuel2 : (travBound (intraExpand e mp2.id) (U.image σ) + 1) *
      (U.image σ).card + 2 ≤ fuel2)
    (w : WireId) (hw : w ∈ mp1.inputs ∨ w ∈ mp1.outputs) :
    ∃ srt, makeWireSortE e mp1 pick1 fuel1 w = .ok (some srt) ∧
      makeWireSortE e mp2 pick2 fuel2 (σ w) = .ok (some (mapSort σ srt)) ∧
      srt.memberSet ⊆ mp1.inputs ∪ mp1.outputs := by
  rcases hw with hwin | hwout
  · have hwU := hinU w hwin
    have hkw : e.kindOf w = .modInput := hkin1 w hwin
    have hkw2 : e.kindOf (σ w) = .modInput := by
      rw [hkind w hwU]
      exact hkw
    obtain ⟨nb, hnb1, hnb2, hnbsub⟩ := neededByE_map e mp1 mp2 σ U pick1 pick2
      fuel1 fuel2 hexp hU hinj hkind hmod houtU hout2 hfuel1 hfuel2 w hwU
    refine ⟨if nb = ∅ then .free else .needed nb, ?_, ?_, ?_⟩
    · unfold makeWireSortE
      rw [if_pos hkw, hnb1]
      rfl
    · unfold makeWireSortE
      rw [if_pos hkw2, hnb2]
      show Except.ok (some (if nb.image σ = ∅ then WireSort.free
        else .needed (nb.image σ))) = _
      by_cases hne : nb = ∅
      · subst hne
        simp [mapSort]
      · have hne2 : nb.image σ ≠ ∅ := fun hh => hne (Finset.image_eq_empty.mp hh)
        rw [if_neg hne2, if_neg hne]
        rfl
    · by_cases hne : nb = ∅
      · subst hne
        rw [if_pos rfl]
        intro x hx
        exact absurd hx (Finset.not_mem_empty _)
      · rw [if_neg hne]
        intro x hx
        exact Finset.mem_union_right _ (hnbsub x hx)
  · have hwU := houtU w hwout
    have hkw : e.kindOf w = .modOutput := hkout1 w hwout
    have hkw2 : e.kindOf (σ w) = .modOutput := by
      rw [hkind w hwU]
      exact hkw
    have hkwn : ¬ e.kindOf w = .modInput := by
      rw [hkw]
      exact fun hh => WKind.noConfusion hh
    have hkwn2 : ¬ e.kindOf (σ w) = .modInput := by
      rw [hkw2]
      exact fun hh => WKind.noConfusion hh
    obtain ⟨d, hd1, hd2, hdsub⟩ := dependsOnE_map e mp1 mp2 σ U pick1 pick2
      fuel1 fuel2 hexp hU hinj hkind hmod hinU houtU hin2 hout2 hfuel1 hfuel2 w hwU
    refine ⟨if d = ∅ then .giving else .dependent d, ?_, ?_, ?_⟩
    · unfold makeWireSortE
      rw [if_neg hkwn, if_pos hkw, hd1]
      rfl
    · unfold makeWireSortE
      rw [if_neg hkwn2, if_pos hkw2, hd2]
      show Except.ok (some (if d.image σ = ∅ then WireSort.giving
        else .dependent (d.image σ))) = _
      by_cases hne : d = ∅
      · subst hne
        simp [mapSort]
      · have hne2 : d.image σ ≠ ∅ := fun hh => hne (Finset.image_eq_empty.mp hh)
        rw [if_neg hne2, if_neg hne]
        rfl
    · by_cases hne : d = ∅
      · subst hne
        rw [if_pos rfl]
        intro x hx
        exact absurd hx (Finset.not_mem_empty _)
      · rw [if_neg hne]
        intro x hx
        exact Finset.mem_union_left _ (hdsub x hx)

/-- **C5.**  For two module instances of identical shape (the second's
boundary dictionaries are the `σ`-rename of the first's, with matching
declared/original names), annotating the first on a cache miss computes
and memoizes its sorts; annotating the second then reuses the memoized
map under the same class-name key — cloning each sort with wire identities
substituted via the matching boundary wire's original name, through a
branch that never invokes the reachability computation — and the second
instance's sort assignment is exactly the `σ`-image (the declared-name
bijection) of the first's, which coincides with what direct
`_make_wire_sort` recomputation on the second instance would produce. -/
theorem claim5_cache_isomorphism (e : Env) (mi1 mi2 : ModInst)
    (σ : WireId → WireId) (U : Finset WireId) (className : String)
    (cache0 : Cache) (pick1 pick2 : List WireId → Nat) (fuel1 fuel2 : Nat)
    (hdin : mi2.inputDict = mi1.inputDict.map (fun p => (p.1, σ p.2)))
    (hdout : mi2.outputDict = mi1.outputDict.map (fun p => (p.1, σ p.2)))
    (hkeys : (mi1.pairs.map Prod.fst).Nodup)
    (hname1 : ∀ p ∈ mi1.pairs, e.originalName p.2 = p.1)
    (hname2 : ∀ p ∈ mi1.pairs, e.originalName (σ p.2) = p.1)
    (hexp : ∀ a ∈ U, intraExpand e mi2.id (σ a) =
      Except.map (List.map σ) (intraExpand e mi1.id a))
    (hU : TravUniv (intraExpand e mi1.id) U)
    (hinj : ∀ a ∈ U, ∀ b ∈ U, σ a = σ b → a = b)
    (hkind : ∀ a ∈ U, e.kindOf (σ a) = e.kindOf a)
    (hmod : ∀ a ∈ U, (e.moduleOf (σ a) = mi2.id ↔ e.moduleOf a = mi1.id))
    (hinU : ∀ i ∈ mi1.toMod.inputs, i ∈ U)
    (houtU : ∀ o ∈ mi1.toMod.outputs, o ∈ U)
    (hkin1 : ∀ i ∈ mi1.toMod.inputs, e.kindOf i = .modInput)
    (hkout1 : ∀ o ∈ mi1.toMod.outputs, e.kindOf o = .modOutput)
    (hasc1 : ∀ p ∈ mi1.pairs, e.ascOf p.2 = none)
    (hc0 : cache0.lookup className = none)
    (hfuel1 : (travBound (intraExpand e mi1.id) U + 1) * U.card + 2 ≤ fuel1)
    (hfuel2 : (travBound (intraExpand e mi2.id) (U.image σ) + 1) *
      (U.image σ).card + 2 ≤ fuel2) :
    ∃ A1 S1,
      annotateModule e mi1 className cache0 pick1 fuel1 =
        .ok (A1, cache0 ++ [(className, S1)]) ∧
      annotateModule e mi2 className (cache0 ++ [(className, S1)]) pick2 fuel2 =
        .ok (A1.map (fun q => (σ q.1, mapSort σ q.2)), cache0 ++ [(className, S1)]) ∧
      (∀ q ∈ A1, makeWireSortE e mi1.toMod pick1 fuel1 q.1 = .ok (some q.2)) ∧
      (∀ q ∈ A1, makeWireSortE e mi2.toMod pick2 fuel2 (σ q.1) =
        .ok (some (mapSort σ q.2))) := by
  have hpairs2 : mi2.pairs = mi1.pairs.map (fun p => (p.1, σ p.2)) := by
    show mi2.inputDict ++ mi2.outputDict = _
    rw [hdin, hdout, ← List.map_append]
    rfl
  have hboundary : ∀ p ∈ mi1.pairs,
      p.2 ∈ mi1.toMod.inputs ∨ p.2 ∈ mi1.toMod.outputs := by
    intro p hp
    have hp2 : p ∈ mi1.inputDict ++ mi1.outputDict := hp
    rcases List.mem_append.mp hp2 with h | h
    · exact Or.inl (List.mem_toFinset.mpr (List.mem_map_of_mem Prod.snd h))
    · exact Or.inr (List.mem_toFinset.mpr (List.mem_map_of_mem Prod.snd h))
  have hin2 : mi2.toMod.inputs = mi1.toMod.inputs.image σ := by
    ext x
    constructor
    · intro hx
      have hxl : x ∈ mi2.inputDict.map Prod.snd := List.mem_toFinset.mp hx
      rw [hdin, List.map_map] at hxl
      obtain ⟨q, hq, rfl⟩ := List.mem_map.mp hxl
      exact Finset.mem_image_of_mem σ
        (List.mem_toFinset.mpr (List.mem_map_of_mem Prod.snd hq))
    · intro hx
      obtain ⟨y, hy, rfl⟩ := Finset.mem_image.mp hx
      have hyl : y ∈ mi1.inputDict.map Prod.snd := List.mem_toFinset.mp hy
      obtain ⟨q, hq, rfl⟩ := List.mem_map.mp hyl
      apply List.mem_toFinset.mpr
      rw [hdin, List.map_map]
      exact List.mem_map_of_mem _ hq
  have hout2 : mi2.toMod.outputs = mi1.toMod.outputs.image σ := by
    ext x
    constructor
    · intro hx
      have hxl : x ∈ mi2.outputDict.map Prod.snd := List.mem_toFinset.mp hx
      rw [hdout, List.map_map] at hxl
      obtain ⟨q, hq, rfl⟩ := List.mem_map.mp hxl
      exact Finset.mem_image_of_mem σ
        (List.mem_toFinset.mpr (List.mem_map_of_mem Prod.snd hq))
    · intro hx
      obtain ⟨y, hy, rfl⟩ := Finset.mem_image.mp hx
      have hyl : y ∈ mi1.outputDict.map Prod.snd := List.mem_toFinset.mp hy
      obtain ⟨q, hq, rfl⟩ := List.mem_map.mp hyl
      apply List.mem_toFinset.mpr
      rw [hdout, List.map_map]
      exact List.mem_map_of_mem _ hq
  have hgetattr : ∀ q ∈ mi1.pairs, getattrW mi2 q.1 = some (σ q.2) := by
    intro q hq
    show (mi2.inputDict ++ mi2.outputDict).lookup q.1 = some (σ q.2)
    have h2 : mi2.inputDict ++ mi2.outputDict =
        mi1.pairs.map (fun p => (p.1, σ p.2)) := hpairs2
    rw [h2]
    exact lookup_map_key Prod.fst (fun p => σ p.2) mi1.pairs hkeys q hq
  have hnodupON : (mi1.pairs.map (fun p => e.originalName p.2)).Nodup := by
    have heq : mi1.pairs.map (fun p => e.originalName p.2) =
        mi1.pairs.map Prod.fst := List.map_congr_left hname1
    rw [heq]
    exact hkeys
  have hmk : ∀ p ∈ mi1.pairs, ∃ srt,
      makeWireSortE e mi1.toMod pick1 fuel1 p.2 = .ok (some srt) ∧
      makeWireSortE e mi2.toMod pick2 fuel2 (σ p.2) = .ok (some (mapSort σ srt)) ∧
      srt.memberSet ⊆ mi1.toMod.inputs ∪ mi1.toMod.outputs := by
    intro p hp
    exact makeWireSortE_map e mi1.toMod mi2.toMod σ U pick1 pick2 fuel1 fuel2
      hexp hU hinj hkind hmod hinU houtU hin2 hout2 hkin1 hkout1 hfuel1 hfuel2
      p.2 (hboundary p hp)
  have hok1 : ∀ p ∈ mi1.pairs, ∃ srt,
      makeWireSortE e mi1.toMod pick1 fuel1 p.2 = .ok (some srt) := by
    intro p hp
    obtain ⟨srt, h1, _, _⟩ := hmk p hp
    exact ⟨srt, h1⟩
  have hann1 := annotateModule_compute e mi1 className cache0 pick1 fuel1
    hc0 hasc1 hok1
  have hgetmem : ∀ x, x ∈ mi1.toMod.inputs ∪ mi1.toMod.outputs →
      getattrW mi2 (e.originalName x) = some (σ x) := by
    intro x hxb
    rcases Finset.mem_union.mp hxb with hxi | hxo
    · have hxl : x ∈ mi1.inputDict.map Prod.snd := List.mem_toFinset.mp hxi
      obtain ⟨q1, hq1, rfl⟩ := List.mem_map.mp hxl
      have hq1p : q1 ∈ mi1.pairs := List.mem_append.mpr (Or.inl hq1)
      rw [hname1 q1 hq1p]
      exact hgetattr q1 hq1p
    · have hxl : x ∈ mi1.outputDict.map Prod.snd := List.mem_toFinset.mp hxo
      obtain ⟨q1, hq1, rfl⟩ := List.mem_map.mp hxl
      have hq1p : q1 ∈ mi1.pairs := List.mem_append.mpr (Or.inr hq1)
      rw [hname1 q1 hq1p]
      exact hgetattr q1 hq1p
  have hlookS1 : ∀ p ∈ mi1.pairs,
      (mi1.pairs.map (fun p => (e.originalName p.2,
        okSortW (makeWireSortE e mi1.toMod pick1 fuel1 p.2)))).lookup
        (e.originalName p.2) =
      some (okSortW (makeWireSortE e mi1.toMod pick1 fuel1 p.2)) :=
    fun p hp => lookup_map_key (fun p => e.originalName p.2)
      (fun p => okSortW (makeWireSortE e mi1.toMod pick1 fuel1 p.2))
      mi1.pairs hnodupON p hp
  refine ⟨_, _, hann1, ?_, ?_, ?_⟩
  · have hlook1 := lookup_append_single
      (mi1.pairs.map (fun p => (e.originalName p.2,
        okSortW (makeWireSortE e mi1.toMod pick1 fuel1 p.2)))) hc0
    have hc2 : ∀ p ∈ mi1.pairs,
        (fun q : String × WireId =>
          match (mi1.pairs.map (fun p => (e.originalName p.2,
            okSortW (makeWireSortE e mi1.toMod pick1 fuel1 p.2)))).lookup
            (e.originalName q.2) with
          | some s => mapSort σ s
          | none => WireSort.free) ((p.1, σ p.2) : String × WireId) =
        mapSort σ (okSortW (makeWireSortE e mi1.toMod pick1 fuel1 p.2)) := by
      intro p hp
      show (match (mi1.pairs.map (fun p => (e.originalName p.2,
          okSortW (makeWireSortE e mi1.toMod pick1 fuel1 p.2)))).lookup
          (e.originalName (σ p.2)) with
        | some s => mapSort σ s
        | none => WireSort.free) = _
      rw [hname2 p hp, ← hname1 p hp, hlookS1 p hp]
    have hcl : ∀ q ∈ mi2.pairs, ∃ s,
        (mi1.pairs.map (fun p => (e.originalName p.2,
          okSortW (makeWireSortE e mi1.toMod pick1 fuel1 p.2)))).lookup
          (e.originalName q.2) = some s ∧
        cloneSort e mi2 s = .ok
          ((fun q : String × WireId =>
            match (mi1.pairs.map (fun p => (e.originalName p.2,
              okSortW (makeWireSortE e mi1.toMod pick1 fuel1 p.2)))).lookup
              (e.originalName q.2) with
            | some s => mapSort σ s
            | none => WireSort.free) q) := by
      intro q hq
      rw [hpairs2] at hq
      obtain ⟨p, hp, rfl⟩ := List.mem_map.mp hq
      refine ⟨okSortW (makeWireSortE e mi1.toMod pick1 fuel1 p.2), ?_, ?_⟩
      · show (mi1.pairs.map (fun p => (e.originalName p.2,
            okSortW (makeWireSortE e mi1.toMod pick1 fuel1 p.2)))).lookup
            (e.originalName (σ p.2)) = _
        rw [hname2 p hp, ← hname1 p hp]
        exact hlookS1 p hp
      · rw [hc2 p hp]
        apply cloneSort_map
        intro x hx
        obtain ⟨srt, hs1, _, hsub⟩ := hmk p hp
        have hx2 : x ∈ srt.memberSet := by
          rw [hs1] at hx
          exact hx
        exact hgetmem x (hsub hx2)
    have hcached := annotateModule_cached e mi2 className
      (cache0 ++ [(className, mi1.pairs.map (fun p => (e.originalName p.2,
        okSortW (makeWireSortE e mi1.toMod pick1 fuel1 p.2))))])
      pick2 fuel2
      (mi1.pairs.map (fun p => (e.originalName p.2,
        okSortW (makeWireSortE e mi1.toMod pick1 fuel1 p.2))))
      (fun q : String × WireId =>
        match (mi1.pairs.map (fun p => (e.originalName p.2,
          okSortW (makeWireSortE e mi1.toMod pick1 fuel1 p.2)))).lookup
          (e.originalName q.2) with
        | some s => mapSort σ s
        | none => WireSort.free)
      hlook1 hcl
    rw [hcached]
    congr 1
    congr 1
    rw [hpairs2, List.map_map, List.map_map]
    refine List.map_congr_left ?_
    intro p hp
    show ((σ p.2 : WireId),
        (fun q : String × WireId =>
          match (mi1.pairs.map (fun p => (e.originalName p.2,
            okSortW (makeWireSortE e mi1.toMod pick1 fuel1 p.2)))).lookup
            (e.originalName q.2) with
          | some s => mapSort σ s
          | none => WireSort.free) ((p.1, σ p.2) : String × WireId)) =
      (σ p.2, mapSort σ (okSortW (makeWireSortE e mi1.toMod pick1 fuel1 p.2)))
    rw [hc2 p hp]
  · intro q hq
    obtain ⟨p, hp, rfl⟩ := List.mem_map.mp hq
    obtain ⟨srt, hs1, _, _⟩ := hmk p hp
    dsimp only
    rw [hs1]
    rfl
  · intro q hq
    obtain ⟨p, hp, rfl⟩ := List.mem_map.mp hq
    obtain ⟨srt, hs1, hs2, _⟩ := hmk p hp
    dsimp only
    rw [hs1]
    exact hs2

/-- Two identically-shaped instances of the Scenario 1 multiplier module
in one circuit: wires 1/2/3 (module 0) and their `+10`-shifted copies
11/12/13 (module 1), with matching original names on the boundary. -/
def envC5 : Env where
  nets := [⟨'*', [1, 2], [3], false⟩, ⟨'*', [11, 12], [13], false⟩]
  kindOf := fun w =>
    if w = 1 ∨ w = 11 then .modInput
    else if w = 3 ∨ w = 13 then .modOutput
    else .regular
  moduleOf := fun w => if w < 10 then 0 else 1
  sortOf := fun _ => none
  originalName := fun w =>
    if w = 1 ∨ w = 11 then "a" else if w = 3 ∨ w = 13 then "b" else "t"
  ascOf := fun _ => none
  strictOf := fun _ => false
  widthOf := fun _ => 4
  inDefinition := fun _ => false

/-- The first instance's boundary dictionaries. -/
def miC5a : ModInst := ⟨0, [("a", 1)], [("b", 3)]⟩

/-- The second instance's boundary dictionaries. -/
def miC5b : ModInst := ⟨1, [("a", 11)], [("b", 13)]⟩

/-- The wire renaming between the two instances. -/
def sigC5 : WireId → WireId := fun w => w + 10

/-- The first instance's traversal universe. -/
def UC5 : Finset WireId := {1, 2, 3}

/-- The essence of C5 on the concrete circuit: the first annotation
computes and memoizes, the second hits the cache and receives exactly the
shifted sorts, which agree with direct recomputation. -/
theorem claim5_witness :
    ∃ A1 S1,
      annotateModule envC5 miC5a "M" [] pickLast 20 =
        .ok (A1, [] ++ [("M", S1)]) ∧
      annotateModule envC5 miC5b "M" ([] ++ [("M", S1)]) pickLast 20 =
        .ok (A1.map (fun q => (sigC5 q.1, mapSort sigC5 q.2)), [] ++ [("M", S1)]) ∧
      (∀ q ∈ A1, makeWireSortE envC5 miC5a.toMod pickLast 20 q.1 =
        .ok (some q.2)) ∧
      (∀ q ∈ A1, makeWireSortE envC5 miC5b.toMod pickLast 20 (sigC5 q.1) =
        .ok (some (mapSort sigC5 q.2))) :=
  claim5_cache_isomorphism envC5 miC5a miC5b sigC5 UC5 "M" [] pickLast pickLast
    20 20 (by decide) (by decide) (by decide) (by decide) (by decide)
    (by decide) (by decide) (by decide) (by decide) (by decide) (by decide)
    (by decide) (by decide) (by decide) (by decide) (by decide) (by decide)
    (by decide)

end PyRTL
